import Mathlib

/-!
Verification development for the FileDrop repository: a shallow embedding of
the resumable stream-transfer receiver and sender (`FileDrop.py`), the peer
registry sweep, and the web session coordinator (`FileDrop_Web/server.py`),
together with theorems settling the frozen specification claims.

Filenames and path components are modelled as `List Char`; filesystem paths
as lists of components. Byte contents are `List Nat`. All definitions are
executable so concrete scenarios can be settled by `decide`.
-/

set_option autoImplicit false

namespace FileDrop

/-- A single path component (one name between separators). -/
abbrev Comp := List Char

/-- A filesystem path, as the list of its components from the root. -/
abbrev FPath := List Comp

/-- Byte contents of a file (each entry one byte value). -/
abbrev Bytes := List Nat

/-! ### Association lists

Python dictionaries (`self._partials`, `STATE["clients"]`, `STATE["file_index"]`,
`self.peers`) are embedded as association lists with first-match lookup. -/

/-- First-match lookup in an association list. -/
def alookup {κ ν : Type} [DecidableEq κ] (l : List (κ × ν)) (k : κ) : Option ν :=
  (l.find? (fun e => decide (e.1 = k))).map (fun e => e.2)

/-- Insert or replace the binding for `k` (Python `d[k] = v`). -/
def aput {κ ν : Type} [DecidableEq κ] (l : List (κ × ν)) (k : κ) (v : ν) : List (κ × ν) :=
  (k, v) :: l.filter (fun e => decide (e.1 ≠ k))

/-- Remove the binding for `k` (Python `d.pop(k, None)`). -/
def aremove {κ ν : Type} [DecidableEq κ] (l : List (κ × ν)) (k : κ) : List (κ × ν) :=
  l.filter (fun e => decide (e.1 ≠ k))

theorem alookup_nil {κ ν : Type} [DecidableEq κ] (k : κ) :
    alookup ([] : List (κ × ν)) k = none := rfl

theorem alookup_cons {κ ν : Type} [DecidableEq κ] (a : κ × ν) (l : List (κ × ν)) (k : κ) :
    alookup (a :: l) k = if a.1 = k then some a.2 else alookup l k := by
  by_cases h : a.1 = k <;> simp [alookup, List.find?, h]

theorem find?_filter_of_imp {α : Type} (l : List α) (pr keep : α → Bool)
    (h : ∀ a, pr a = true → keep a = true) :
    (l.filter keep).find? pr = l.find? pr := by
  induction l with
  | nil => rfl
  | cons a t ih =>
    by_cases hk : keep a = true
    · by_cases hp : pr a = true
      · simp [List.filter, hk, List.find?, hp]
      · simp only [Bool.not_eq_true] at hp
        simp [List.filter, hk, List.find?, hp, ih]
    · have hp : pr a = false := by
        cases hpr : pr a
        · rfl
        · exact absurd (h a hpr) hk
      simp only [Bool.not_eq_true] at hk
      simp [List.filter, hk, List.find?, hp, ih]

theorem alookup_filter_ne {κ ν : Type} [DecidableEq κ] (l : List (κ × ν)) (k k' : κ)
    (hne : k ≠ k') :
    alookup (l.filter (fun e => decide (e.1 ≠ k'))) k = alookup l k := by
  unfold alookup
  rw [find?_filter_of_imp]
  intro a ha
  simp only [decide_eq_true_eq] at ha ⊢
  rw [ha]; exact hne

theorem alookup_eq_none_iff {κ ν : Type} [DecidableEq κ] (l : List (κ × ν)) (k : κ) :
    alookup l k = none ↔ ∀ e ∈ l, e.1 ≠ k := by
  simp [alookup, Option.map_eq_none', List.find?_eq_none]

theorem alookup_aput_same {κ ν : Type} [DecidableEq κ] (l : List (κ × ν)) (k : κ) (v : ν) :
    alookup (aput l k v) k = some v := by
  simp [aput, alookup_cons]

theorem alookup_aput_ne {κ ν : Type} [DecidableEq κ] (l : List (κ × ν)) (k k' : κ) (v : ν)
    (h : k' ≠ k) :
    alookup (aput l k v) k' = alookup l k' := by
  rw [aput, alookup_cons, if_neg (fun he => h he.symm)]
  exact alookup_filter_ne l k' k h

theorem alookup_aremove_same {κ ν : Type} [DecidableEq κ] (l : List (κ × ν)) (k : κ) :
    alookup (aremove l k) k = none := by
  rw [aremove, alookup_eq_none_iff]
  intro e he
  have := List.mem_filter.mp he
  simpa using this.2

theorem alookup_aremove_ne {κ ν : Type} [DecidableEq κ] (l : List (κ × ν)) (k k' : κ)
    (h : k' ≠ k) :
    alookup (aremove l k) k' = alookup l k' := alookup_filter_ne l k' k h

theorem alookup_some_mem {κ ν : Type} [DecidableEq κ] (l : List (κ × ν)) (k : κ) (v : ν)
    (h : alookup l k = some v) : (k, v) ∈ l := by
  induction l with
  | nil => simp [alookup] at h
  | cons a t ih =>
    rw [alookup_cons] at h
    by_cases ha : a.1 = k
    · rw [if_pos ha] at h
      simp only [Option.some.injEq] at h
      have hae : a = (k, v) := by
        cases a; simp only at ha h; simp [ha, h]
      rw [hae]
      exact List.mem_cons_self (k, v) t
    · rw [if_neg ha] at h
      exact List.mem_cons_of_mem a (ih h)

theorem alookup_filter_of_keep {κ ν : Type} [DecidableEq κ] (l : List (κ × ν))
    (keep : κ × ν → Bool) (k : κ) (v : ν)
    (h : alookup l k = some v) (hkeep : keep (k, v) = true) :
    alookup (l.filter keep) k = some v := by
  induction l with
  | nil => simp [alookup] at h
  | cons a t ih =>
    rw [alookup_cons] at h
    by_cases ha : a.1 = k
    · rw [if_pos ha] at h
      simp only [Option.some.injEq] at h
      have hae : a = (k, v) := by
        cases a; simp only at ha h; simp [ha, h]
      subst hae
      simp [List.filter, hkeep, alookup_cons]
    · rw [if_neg ha] at h
      by_cases hk : keep a = true
      · simp [List.filter, hk, alookup_cons, ha, ih h]
      · simp only [Bool.not_eq_true] at hk
        simp [List.filter, hk, ih h]

theorem alookup_filter_of_drop {κ ν : Type} [DecidableEq κ] (l : List (κ × ν))
    (keep : κ × ν → Bool) (k : κ) (v : ν)
    (hnd : (l.map (fun e => e.1)).Nodup)
    (h : alookup l k = some v) (hdrop : keep (k, v) = false) :
    alookup (l.filter keep) k = none := by
  induction l with
  | nil => simp [alookup] at h
  | cons a t ih =>
    simp only [List.map_cons, List.nodup_cons] at hnd
    rw [alookup_cons] at h
    by_cases ha : a.1 = k
    · rw [if_pos ha] at h
      simp only [Option.some.injEq] at h
      have hae : a = (k, v) := by
        cases a; simp only at ha h; simp [ha, h]
      subst hae
      simp only [List.filter, hdrop]
      rw [alookup_eq_none_iff]
      intro e he
      have hmem := List.mem_filter.mp he
      intro hek
      exact hnd.1 (hek ▸ List.mem_map_of_mem (fun e => e.1) hmem.1)
    · rw [if_neg ha] at h
      by_cases hk : keep a = true
      · simp [List.filter, hk, alookup_cons, ha, ih hnd.2 h]
      · simp only [Bool.not_eq_true] at hk
        simp [List.filter, hk, ih hnd.2 h]

theorem alookup_filter_none {κ ν : Type} [DecidableEq κ] (l : List (κ × ν))
    (keep : κ × ν → Bool) (k : κ)
    (h : alookup l k = none) :
    alookup (l.filter keep) k = none := by
  rw [alookup_eq_none_iff] at h ⊢
  intro e he
  exact h e (List.mem_of_mem_filter he)

/-! ### Python path semantics

`pyName` models `pathlib.Path(s).name`; `pySuffix` and `pyStem` model the
`.suffix` and `.stem` properties (CPython: the last dot counts only when it is
neither the first nor the last character of the final component); `pjoin`
models `dir / c` (empty and `"."` components are dropped); `pyWithSuffix`
models `.with_suffix`. -/

/-- Split a character list at every occurrence of `sep` (like `str.split`). -/
def splitOnCharAux (sep : Char) : List Char → List Char → List (List Char)
  | [], acc => [acc.reverse]
  | c :: cs, acc =>
    if c = sep then acc.reverse :: splitOnCharAux sep cs []
    else splitOnCharAux sep cs (c :: acc)

/-- Split a character list at every occurrence of `sep`. -/
def splitOnChar (sep : Char) (s : List Char) : List (List Char) :=
  splitOnCharAux sep s []

/-- The components of a POSIX path string: split on `/`, dropping empty
components and `"."` (as `pathlib` does when parsing). -/
def pyNameParts (s : List Char) : List Comp :=
  (splitOnChar '/' s).filter (fun c => decide (c ≠ [] ∧ c ≠ ['.']))

/-- `pathlib.Path(s).name`: the final parsed component, or empty. -/
def pyName (s : List Char) : Comp :=
  (pyNameParts s).getLast?.getD []

/-- Index of the last `'.'` in a component, if any. -/
def lastDotIdx (c : Comp) : Option Nat :=
  (c.reverse.findIdx? (fun x => decide (x = '.'))).map (fun j => c.length - 1 - j)

/-- `pathlib` `.suffix` of a single component. -/
def pySuffix (c : Comp) : Comp :=
  match lastDotIdx c with
  | some i => if 0 < i ∧ i < c.length - 1 then c.drop i else []
  | none => []

/-- `pathlib` `.stem` of a single component. -/
def pyStem (c : Comp) : Comp :=
  match lastDotIdx c with
  | some i => if 0 < i ∧ i < c.length - 1 then c.take i else c
  | none => c

/-- `dir / c` for a single component `c` (empty and `"."` are dropped). -/
def pjoin (d : FPath) (c : Comp) : FPath :=
  if c = [] ∨ c = ['.'] then d else d ++ [c]

/-- Final component of a path (`Path.name` of an already-parsed path). -/
def plast (p : FPath) : Comp := p.getLast?.getD []

/-- `Path.parent` of an already-parsed path (purely syntactic). -/
def pparent (p : FPath) : FPath := p.dropLast

/-- `p.with_suffix(suf)`: strip the final component's suffix, append `suf`. -/
def pyWithSuffix (p : FPath) (suf : Comp) : FPath :=
  let nm := plast p
  let old := pySuffix nm
  pparent p ++ [nm.take (nm.length - old.length) ++ suf]

/-- `p.with_suffix(p.suffix + ".part")`, the derived partial-file path used by
the receiver (net effect: append `".part"` to the final component). -/
def partPathFor (p : FPath) : FPath :=
  pyWithSuffix p (pySuffix (plast p) ++ ".part".toList)

/-- Decimal digit character, as Python `str` renders digits. -/
def digitChar (n : Nat) : Char := Char.ofNat (48 + n)

/-- Decimal rendering of a natural number, fuel-limited helper. -/
def natCharsAux : Nat → Nat → List Char
  | 0, _ => []
  | f + 1, n => if n < 10 then [digitChar n] else natCharsAux f (n / 10) ++ [digitChar (n % 10)]

/-- Decimal rendering of a natural number (Python `str(n)` for `n ≥ 0`). -/
def natChars (n : Nat) : List Char := natCharsAux (n + 1) n

/-- The collision candidate component `f"{base} ({n}){ext}"`. -/
def numberedName (base ext : Comp) (n : Nat) : Comp :=
  base ++ " (".toList ++ natChars n ++ ")".toList ++ ext

/-- POSIX resolution of a component list: `".."` pops, `""` and `"."` vanish
(resolution of `".."` at the root stays at the root; symlinks not modelled). -/
def resolveComps (p : FPath) : FPath :=
  p.foldl
    (fun acc c =>
      if c = "..".toList then acc.dropLast
      else if c = [] ∨ c = ['.'] then acc else acc ++ [c]) []

/-- A component that resolution passes through unchanged. -/
def normalComp (c : Comp) : Bool :=
  decide (c ≠ [] ∧ c ≠ ['.'] ∧ c ≠ "..".toList)

/-- A path all of whose components are `normalComp`. -/
def normalPath (p : FPath) : Bool := p.all normalComp

theorem resolveComps_go (p : FPath) (acc : FPath) (h : normalPath p = true) :
    p.foldl
      (fun acc c =>
        if c = "..".toList then acc.dropLast
        else if c = [] ∨ c = ['.'] then acc else acc ++ [c]) acc = acc ++ p := by
  induction p generalizing acc with
  | nil => simp
  | cons c t ih =>
    simp only [normalPath, List.all_cons, Bool.and_eq_true] at h
    have hc := h.1
    simp only [normalComp, decide_eq_true_eq] at hc
    have hne : ¬ (c = [] ∨ c = ['.']) := by
      rintro (h1 | h2)
      · exact hc.1 h1
      · exact hc.2.1 h2
    simp only [List.foldl_cons, if_neg hc.2.2, if_neg hne]
    rw [ih (acc ++ [c]) h.2]
    simp

theorem resolveComps_normal (p : FPath) (h : normalPath p = true) :
    resolveComps p = p := by
  have := resolveComps_go p [] h
  simpa [resolveComps] using this

/-! ### Filesystem model

A finite map from resolved paths to byte contents, plus a set of directories.
Every operation resolves its path argument first, matching what the OS does
with the pure paths `pathlib` hands it (symlinks are not modelled). -/

/-- Abstract filesystem: files (resolved path to contents) and directories. -/
structure FS where
  files : List (FPath × Bytes)
  dirs : List FPath
deriving DecidableEq

/-- Contents of the file at `p`, if a file exists there. -/
def FS.lookupFile (fs : FS) (p : FPath) : Option Bytes :=
  alookup fs.files (resolveComps p)

/-- `Path.is_file()`. -/
def FS.isFile (fs : FS) (p : FPath) : Bool :=
  (fs.lookupFile p).isSome

/-- `Path.is_dir()`. -/
def FS.isDir (fs : FS) (p : FPath) : Bool :=
  fs.dirs.contains (resolveComps p)

/-- `Path.exists()`: true for files and directories. -/
def FS.pexists (fs : FS) (p : FPath) : Bool :=
  fs.isFile p || fs.isDir p

/-- `Path.stat().st_size` (0 for directories and missing paths). -/
def FS.fileSize (fs : FS) (p : FPath) : Nat :=
  ((fs.lookupFile p).getD []).length

/-- `open(p, "wb")` followed by writing `bs`: create or truncate-and-write. -/
def FS.setFile (fs : FS) (p : FPath) (bs : Bytes) : FS :=
  { fs with files := aput fs.files (resolveComps p) bs }

/-- `open(p, "ab")` followed by writing `bs`: append (create if missing). -/
def FS.appendFile (fs : FS) (p : FPath) (bs : Bytes) : FS :=
  fs.setFile p (((fs.lookupFile p).getD []) ++ bs)

/-- `Path.unlink()` on a file. -/
def FS.removeFile (fs : FS) (p : FPath) : FS :=
  { fs with files := aremove fs.files (resolveComps p) }

/-- `src.replace(dst)`: rename, silently overwriting `dst`. -/
def FS.rename (fs : FS) (src dst : FPath) : FS :=
  match fs.lookupFile src with
  | none => fs
  | some bs => (fs.removeFile src).setFile dst bs

/-- `Path.mkdir(exist_ok=True)` as used by `ensure_dir`. -/
def FS.ensureDir (fs : FS) (p : FPath) : FS :=
  if fs.isDir p then fs else { fs with dirs := resolveComps p :: fs.dirs }

theorem FS.lookupFile_setFile (fs : FS) (p q : FPath) (bs : Bytes) :
    (fs.setFile p bs).lookupFile q =
      if resolveComps q = resolveComps p then some bs else fs.lookupFile q := by
  by_cases h : resolveComps q = resolveComps p
  · simp [FS.setFile, FS.lookupFile, h, alookup_aput_same]
  · simp [FS.setFile, FS.lookupFile, h, alookup_aput_ne _ _ _ _ h]

theorem FS.lookupFile_removeFile (fs : FS) (p q : FPath) :
    (fs.removeFile p).lookupFile q =
      if resolveComps q = resolveComps p then none else fs.lookupFile q := by
  by_cases h : resolveComps q = resolveComps p
  · simp [FS.removeFile, FS.lookupFile, h, alookup_aremove_same]
  · simp [FS.removeFile, FS.lookupFile, h, alookup_aremove_ne _ _ _ h]

theorem FS.dirs_setFile (fs : FS) (p : FPath) (bs : Bytes) :
    (fs.setFile p bs).dirs = fs.dirs := rfl

theorem FS.dirs_removeFile (fs : FS) (p : FPath) :
    (fs.removeFile p).dirs = fs.dirs := rfl

theorem FS.isDir_setFile (fs : FS) (p q : FPath) (bs : Bytes) :
    (fs.setFile p bs).isDir q = fs.isDir q := rfl

theorem FS.isDir_removeFile (fs : FS) (p q : FPath) :
    (fs.removeFile p).isDir q = fs.isDir q := rfl

/-! ### Final-name allocation

Three allocation loops appear in the sources. The fresh-transfer path in
`ReceiverThread.run` (`while dest.exists(): dest = parent / f base (counter) ext`),
the resume path's loop (`while final_path.exists() or (parent / ...).exists()`),
and `unique_path` in `FileDrop_Web/server.py`. All are fuel-limited here
(`none` means the fuel ran out, which a real run cannot hit since the
filesystem is finite). -/

/-- Candidate `n` for a requested destination `dest0`:
`dest0.parent / f"{dest0.stem} ({n}){dest0.suffix}"`. -/
def mkNumbered (dest0 : FPath) (n : Nat) : FPath :=
  pparent dest0 ++ [numberedName (pyStem (plast dest0)) (pySuffix (plast dest0)) n]

/-- The fresh-transfer allocation loop of `ReceiverThread.run`:
`counter = 1; while dest.exists(): dest = mk counter; counter += 1`. -/
def freshAllocLoop (ex : FPath → Bool) (mk : Nat → FPath) :
    Nat → FPath → Nat → Option FPath
  | 0, _, _ => none
  | f + 1, dest, counter =>
    if ex dest then freshAllocLoop ex mk f (mk counter) (counter + 1) else some dest

/-- The resume-path allocation loop of `ReceiverThread.run`:
`counter = 1; while final.exists() or (mk counter).exists(): final = mk counter; counter += 1`. -/
def resumeAllocLoop (ex : FPath → Bool) (mk : Nat → FPath) :
    Nat → FPath → Nat → Option FPath
  | 0, _, _ => none
  | f + 1, fin, counter =>
    if ex fin || ex (mk counter) then resumeAllocLoop ex mk f (mk counter) (counter + 1)
    else some fin

/-- Inner loop of `unique_path`: try `mk n`, `mk (n+1)`, … until one is free. -/
def uniqueLoop (ex : FPath → Bool) (mk : Nat → FPath) : Nat → Nat → Option FPath
  | 0, _ => none
  | f + 1, n => if ex (mk n) then uniqueLoop ex mk f (n + 1) else some (mk n)

/-- Allocation performed by the fresh-transfer path of `ReceiverThread.run`
(lines 272-281): start from `save_dir / Path(filename).name`, then append
`" (n)"` before the extension while the candidate exists. -/
def freshPathAlloc (fs : FS) (dir : FPath) (filename : List Char) (fuel : Nat) :
    Option FPath :=
  let dest0 := pjoin dir (pyName filename)
  freshAllocLoop fs.pexists (mkNumbered dest0) fuel dest0 1

/-- `unique_path` from `FileDrop_Web/server.py`: return `directory / safe_name`
if free, else the first free `directory / f"{stem} ({n}){suffix}"`. -/
def unique_path (fs : FS) (directory : FPath) (filename : List Char) (fuel : Nat) :
    Option FPath :=
  let dest := pjoin directory (pyName filename)
  if fs.pexists dest then
    uniqueLoop fs.pexists
      (fun n => pjoin directory (numberedName (pyStem (plast dest)) (pySuffix (plast dest)) n))
      fuel 1
  else some dest

/-- Allocation performed by the resume path of `ReceiverThread.run`
(lines 212-221) when no entry and no `.part` file exist. -/
def resumePathAlloc (fs : FS) (dir : FPath) (filename : List Char) (fuel : Nat) :
    Option FPath :=
  let fin0 := pjoin dir (pyName filename)
  resumeAllocLoop fs.pexists (mkNumbered fin0) fuel fin0 1

theorem freshAllocLoop_tail_eq_uniqueLoop (ex : FPath → Bool) (mk : Nat → FPath) :
    ∀ (f n : Nat), freshAllocLoop ex mk f (mk n) (n + 1) = uniqueLoop ex mk f n := by
  intro f
  induction f with
  | zero => intro n; rfl
  | succ f ih =>
    intro n
    by_cases h : ex (mk n) = true
    · simp [freshAllocLoop, uniqueLoop, h, ih (n + 1)]
    · simp only [Bool.not_eq_true] at h
      simp [freshAllocLoop, uniqueLoop, h]

theorem freshAllocLoop_of_free (ex : FPath → Bool) (mk : Nat → FPath) (dest : FPath)
    (f c : Nat) (h : ex dest = false) :
    freshAllocLoop ex mk (f + 1) dest c = some dest := by
  simp [freshAllocLoop, h]

theorem resumeAllocLoop_of_free (ex : FPath → Bool) (mk : Nat → FPath) (fin : FPath)
    (f c : Nat) (h1 : ex fin = false) (h2 : ex (mk c) = false) :
    resumeAllocLoop ex mk (f + 1) fin c = some fin := by
  simp [resumeAllocLoop, h1, h2]

theorem freshAllocLoop_mem (ex : FPath → Bool) (mk : Nat → FPath) :
    ∀ (f : Nat) (dest : FPath) (c : Nat) (p : FPath),
      freshAllocLoop ex mk f dest c = some p →
        ex p = false ∧ (p = dest ∨ ∃ n, p = mk n) := by
  intro f
  induction f with
  | zero => intro dest c p h; simp [freshAllocLoop] at h
  | succ f ih =>
    intro dest c p h
    by_cases he : ex dest = true
    · simp only [freshAllocLoop, he, if_true] at h
      obtain ⟨hex, h1⟩ := ih (mk c) (c + 1) p h
      rcases h1 with h1 | ⟨n, hn⟩
      · exact ⟨hex, Or.inr ⟨c, h1⟩⟩
      · exact ⟨hex, Or.inr ⟨n, hn⟩⟩
    · simp only [Bool.not_eq_true] at he
      simp only [freshAllocLoop, he, Bool.false_eq_true, if_false, Option.some.injEq] at h
      exact ⟨h ▸ he, Or.inl h.symm⟩

theorem resumeAllocLoop_mem (ex : FPath → Bool) (mk : Nat → FPath) :
    ∀ (f : Nat) (fin : FPath) (c : Nat) (p : FPath),
      resumeAllocLoop ex mk f fin c = some p →
        ex p = false ∧ (p = fin ∨ ∃ n, p = mk n) := by
  intro f
  induction f with
  | zero => intro fin c p h; simp [resumeAllocLoop] at h
  | succ f ih =>
    intro fin c p h
    by_cases he : (ex fin || ex (mk c)) = true
    · simp only [resumeAllocLoop, he, if_true] at h
      obtain ⟨hex, h1⟩ := ih (mk c) (c + 1) p h
      rcases h1 with h1 | ⟨n, hn⟩
      · exact ⟨hex, Or.inr ⟨c, h1⟩⟩
      · exact ⟨hex, Or.inr ⟨n, hn⟩⟩
    · simp only [Bool.not_eq_true] at he
      rw [Bool.or_eq_false_iff] at he
      simp only [resumeAllocLoop, he.1, he.2, Bool.or_self, Bool.false_eq_true, if_false,
        Option.some.injEq] at h
      exact ⟨h ▸ he.1, Or.inl h.symm⟩

theorem uniqueLoop_first_free (ex : FPath → Bool) (mk : Nat → FPath) :
    ∀ (f n : Nat) (p : FPath), uniqueLoop ex mk f n = some p →
      ∃ j, n ≤ j ∧ p = mk j ∧ ex (mk j) = false ∧
        ∀ m, n ≤ m → m < j → ex (mk m) = true := by
  intro f
  induction f with
  | zero => intro n p h; simp [uniqueLoop] at h
  | succ f ih =>
    intro n p h
    by_cases he : ex (mk n) = true
    · simp only [uniqueLoop, he, if_true] at h
      obtain ⟨j, hj1, hj2, hj3, hj4⟩ := ih (n + 1) p h
      refine ⟨j, by omega, hj2, hj3, ?_⟩
      intro m hm1 hm2
      rcases Nat.eq_or_lt_of_le hm1 with hm | hm
      · rw [← hm]; exact he
      · exact hj4 m hm hm2
    · simp only [Bool.not_eq_true] at he
      simp only [uniqueLoop, he, Bool.false_eq_true, if_false, Option.some.injEq] at h
      exact ⟨n, Nat.le_refl n, h.symm, he, fun m hm1 hm2 => absurd (Nat.lt_of_le_of_lt hm1 hm2) (Nat.lt_irrefl n)⟩

/-! ### Receiver state machine (`ReceiverThread.run`)

One transfer key is `(filename, filesize)` as decoded from the wire. The
receiver keeps `self._partials` (here `table`) and the filesystem. Each
handler gives the net effect of one accepted connection; `stream` is the
sequence of payload bytes the peer delivers before the connection closes
(chunk boundaries do not affect the bytes written, so only the byte sequence
is modelled). -/

/-- A transfer key: the decoded `(filename, filesize)` pair. -/
abbrev TKey := List Char × Nat

/-- Receiver-side state: the `self._partials` table and the filesystem. -/
structure RecvState where
  table : List (TKey × (FPath × FPath))
  fs : FS
deriving DecidableEq

/-- `self._partials.get(key)`. -/
def RecvState.getEntry (st : RecvState) (k : TKey) : Option (FPath × FPath) :=
  alookup st.table k

/-- `self._partials[key] = {"part": ..., "final": ...}`. -/
def RecvState.putEntry (st : RecvState) (k : TKey) (v : FPath × FPath) : RecvState :=
  { st with table := aput st.table k v }

/-- `self._partials.pop(key, None)`. -/
def RecvState.popEntry (st : RecvState) (k : TKey) : RecvState :=
  { st with table := aremove st.table k }

/-- Result of the fresh-transfer branch of one connection. -/
structure TransResult where
  st : RecvState
  completed : Bool
  finalPath : FPath
  partPath : FPath
deriving DecidableEq

/-- Result of the resume branch: `offset` is the 8-byte reply, `wrote` the
bytes appended to the partial file on this connection. -/
structure ResumeResult where
  st : RecvState
  offset : Nat
  wrote : Bytes
  completed : Bool
  finalPath : FPath
  partPath : FPath
deriving DecidableEq

/-- Fresh-transfer handling (`ReceiverThread.run` lines 267-304): allocate a
unique final name, register the table entry, stream to the `.part` file, and
on reaching `filesize` bytes rename it onto the final name and drop the
entry; on a short stream leave both in place. -/
def handleFresh (dir : FPath) (st : RecvState) (filename : List Char)
    (filesize : Nat) (stream : Bytes) (fuel : Nat) : Option TransResult :=
  match freshPathAlloc st.fs dir filename fuel with
  | none => none
  | some dest =>
    let part := partPathFor dest
    let key : TKey := (filename, filesize)
    let st1 := st.putEntry key (part, dest)
    let written := stream.take filesize
    let st2 : RecvState := { st1 with fs := st1.fs.setFile part written }
    if filesize ≤ written.length then
      some ⟨(RecvState.popEntry { st2 with fs := st2.fs.rename part dest } key),
        true, dest, part⟩
    else some ⟨st2, false, dest, part⟩

/-- The write phase shared by all resume branches: reply with the partial
file's current size, append the incoming bytes from that offset, and complete
by atomic rename when `filesize` is reached. `streamAfter o` is the byte
sequence the peer sends after reading the offset reply `o`. -/
def resumeWritePhase (st : RecvState) (part fin : FPath) (key : TKey)
    (filesize : Nat) (streamAfter : Nat → Bytes) : ResumeResult :=
  let offset := if st.fs.pexists part then st.fs.fileSize part else 0
  let toWrite := (streamAfter offset).take (filesize - offset)
  let fs1 := if offset = 0 then st.fs.setFile part toWrite else st.fs.appendFile part toWrite
  let st1 : RecvState := { st with fs := fs1 }
  if filesize ≤ offset + toWrite.length then
    ⟨(RecvState.popEntry { st1 with fs := st1.fs.rename part fin } key), offset, toWrite, true, fin, part⟩
  else ⟨st1, offset, toWrite, false, fin, part⟩

/-- The `else` branch of resume handling (no live table entry with an existing
partial file): adopt an on-disk `.part` file, or answer "already complete", or
allocate afresh via the resume-path loop. -/
def handleResumeElse (dir : FPath) (st : RecvState) (filename : List Char)
    (filesize : Nat) (streamAfter : Nat → Bytes) (fuel : Nat) : Option ResumeResult :=
  let key : TKey := (filename, filesize)
  let fin0 := pjoin dir (pyName filename)
  let part0 := partPathFor fin0
  let adopted := st.fs.pexists part0
  let st1 := if adopted then st.putEntry key (part0, fin0) else st
  if st1.fs.pexists fin0 && decide (st1.fs.fileSize fin0 = filesize) then
    some ⟨st1, filesize, [], false, fin0, part0⟩
  else if adopted then
    some (resumeWritePhase st1 part0 fin0 key filesize streamAfter)
  else
    match resumePathAlloc st1.fs dir filename fuel with
    | none => none
    | some fin =>
      let part := partPathFor fin
      some (resumeWritePhase (st1.putEntry key (part, fin)) part fin key filesize streamAfter)

/-- Resume handling (`ReceiverThread.run` lines 189-245). -/
def handleResume (dir : FPath) (st : RecvState) (filename : List Char)
    (filesize : Nat) (streamAfter : Nat → Bytes) (fuel : Nat) : Option ResumeResult :=
  let key : TKey := (filename, filesize)
  match st.getEntry key with
  | some pf =>
    if st.fs.pexists pf.1 then
      some (resumeWritePhase st pf.1 pf.2 key filesize streamAfter)
    else handleResumeElse dir st filename filesize streamAfter fuel
  | none => handleResumeElse dir st filename filesize streamAfter fuel

/-- The derived `.part` path a Cancel message additionally deletes
(`(save_dir / Path(filename).name).with_suffix(Path(filename).suffix + ".part")`). -/
def cancelDerivedPath (dir : FPath) (filename : List Char) : FPath :=
  pyWithSuffix (pjoin dir (pyName filename)) (pySuffix (pyName filename) ++ ".part".toList)

/-- Cancel handling (`ReceiverThread.run` lines 246-266): drop every table
entry whose key's filename matches, unlink each of their partial files, then
unlink the derived `.part` path if present. No reply is sent. -/
def handleCancel (dir : FPath) (st : RecvState) (filename : List Char) : RecvState :=
  let matching := st.table.filter (fun e => decide (e.1.1 = filename))
  let fs1 := matching.foldl
    (fun fs e => if fs.isFile e.2.1 then fs.removeFile e.2.1 else fs) st.fs
  let derived := cancelDerivedPath dir filename
  let fs2 := if fs1.isFile derived then fs1.removeFile derived else fs1
  { table := st.table.filter (fun e => decide (e.1.1 ≠ filename)), fs := fs2 }

/-! ### Sender (`SenderThread.run`) -/

/-- Payload byte sequence a fresh send delivers (the whole file). -/
def senderFreshStream (content : Bytes) : Bytes := content

/-- Payload byte sequence a resumed send delivers after reading the offset
reply: nothing when `offset >= filesize` ("already complete"), otherwise the
file from `offset` to the end (`f.seek(offset)` then read to EOF). -/
def senderResumeBody (content : Bytes) (filesize offset : Nat) : Bytes :=
  if filesize ≤ offset then [] else content.drop offset

/-! ### Web session coordinator (`FileDrop_Web/server.py`)

Connected clients are kept in `STATE["clients"]`, keyed by session id. Each
client's websocket channel is abstracted by `sendOk`: whether `ws.send_text`
succeeds on it. Messages are the JSON payloads the server builds. -/

/-- A websocket session id. -/
abbrev SessId := List Char

/-- One entry of `STATE["clients"]`. -/
structure WClient where
  client_id : List Char
  name : List Char
  can_receive : Bool
  is_admin : Bool
  sendOk : Bool
deriving DecidableEq

/-- A JSON message the server can push on a channel. -/
inductive WMsg where
  | note (fromName : List Char) (sid cid : List Char) (text : List Char) (ts : Int)
  | clientsRoster (items : List (SessId × List Char × List Char × Bool × Bool))
  | file (name : Comp) (size : Nat) (fromName : List Char) (cid : Option (List Char))
      (targets : Option (List (List Char))) (ts : Int)
  | pong
deriving DecidableEq

/-- Whether a message is the full-roster `{"type": "clients", ...}` push. -/
def WMsg.isRoster : WMsg → Bool
  | WMsg.clientsRoster _ => true
  | _ => false

/-- The `text` field of a note message. -/
def WMsg.noteText : WMsg → Option (List Char)
  | WMsg.note _ _ _ t _ => some t
  | _ => none

/-- Metadata stored in `STATE["file_index"]`. -/
structure FileMeta where
  targets : Option (List (List Char))
  size : Nat
  ts : Int
  fromName : List Char
deriving DecidableEq

/-- The `STATE` dict of the web server (channels abstracted into clients). -/
structure ServerState where
  access_code : List Char
  save_dir : FPath
  clients : List (SessId × WClient)
  file_index : List (Comp × FileMeta)
  fs : FS
deriving DecidableEq

/-- `sanitize_name`: strip surrounding ASCII whitespace, default `"Guest"`,
truncate to 40 characters. -/
def sanitize_name (s : Option (List Char)) : List Char :=
  let ws : Char → Bool := fun c => decide (c = ' ' ∨ c = '\t' ∨ c = '\n' ∨ c = '\r')
  let t := (((s.getD []).dropWhile ws).reverse.dropWhile ws).reverse
  if t = [] then "Guest".toList else t.take 40

/-- `broadcast`: attempt delivery on every channel, then drop the dead ones.
Returns the new state and the successfully delivered `(session, message)`s. -/
def broadcastF (st : ServerState) (m : WMsg) : ServerState × List (SessId × WMsg) :=
  ({ st with clients := st.clients.filter (fun e => e.2.sendOk) },
    (st.clients.filter (fun e => e.2.sendOk)).map (fun e => (e.1, m)))

/-- `broadcast_except`: like `broadcastF` but skips one session id entirely
(it is neither delivered to nor pruned). -/
def broadcastExceptF (st : ServerState) (sid : SessId) (m : WMsg) :
    ServerState × List (SessId × WMsg) :=
  ({ st with clients := st.clients.filter (fun e => decide (e.1 = sid) || e.2.sendOk) },
    (st.clients.filter (fun e => decide (e.1 ≠ sid) && e.2.sendOk)).map (fun e => (e.1, m)))

/-- `notify_session`: deliver to one session; on failure drop it from the
registry (no roster broadcast follows). -/
def notifySessionF (st : ServerState) (sid : SessId) (m : WMsg) :
    ServerState × List (SessId × WMsg) :=
  match alookup st.clients sid with
  | none => (st, [])
  | some info =>
    if info.sendOk then (st, [(sid, m)])
    else ({ st with clients := aremove st.clients sid }, [])

/-- Sequenced `notify_session` over a list of session ids. -/
def notifySessions (m : WMsg) : ServerState → List SessId → ServerState × List (SessId × WMsg)
  | st, [] => (st, [])
  | st, t :: ts =>
    let r := notifySessionF st t m
    let rest := notifySessions m r.1 ts
    (rest.1, r.2 ++ rest.2)

/-- `notify_target`: notify every session whose client id matches. -/
def notifyTargetF (st : ServerState) (tid : List Char) (m : WMsg) :
    ServerState × List (SessId × WMsg) :=
  notifySessions m st ((st.clients.filter (fun e => decide (e.2.client_id = tid))).map (fun e => e.1))

/-- `notify_targets` over a target-id list. -/
def notifyTargetsF (m : WMsg) : ServerState → List (List Char) → ServerState × List (SessId × WMsg)
  | st, [] => (st, [])
  | st, t :: ts =>
    let r := notifyTargetF st t m
    let rest := notifyTargetsF m r.1 ts
    (rest.1, r.2 ++ rest.2)

/-- The roster items of `broadcast_clients`. -/
def rosterItems (clients : List (SessId × WClient)) :
    List (SessId × List Char × List Char × Bool × Bool) :=
  clients.map (fun e => (e.1, e.2.client_id, e.2.name, e.2.can_receive, e.2.is_admin))

/-- `broadcast_clients`: push the full roster to everyone. -/
def broadcast_clients (st : ServerState) : ServerState × List (SessId × WMsg) :=
  broadcastF st (WMsg.clientsRoster (rosterItems st.clients))

/-- `is_admin_client`: some connected client already flagged admin has this
client id. -/
def is_admin_client (clients : List (SessId × WClient)) (cid : Option (List Char)) : Bool :=
  match cid with
  | none => false
  | some c =>
    if c = [] then false
    else clients.any (fun e => e.2.is_admin && decide (e.2.client_id = c))

/-- `is_admin_request`: admin-flagged client id, or transport source address
in the loopback / own-LAN set. -/
def is_admin_request (clients : List (SessId × WClient)) (cid : Option (List Char))
    (remote_host lan_ip : List Char) : Bool :=
  is_admin_client clients cid ||
    decide (remote_host = "127.0.0.1".toList ∨ remote_host = "::1".toList ∨ remote_host = lan_ip)

/-- `kick_session`: if the session exists, drop it and broadcast the roster;
otherwise do nothing. -/
def kick_session (st : ServerState) (sid : SessId) : ServerState × List (SessId × WMsg) :=
  match alookup st.clients sid with
  | none => (st, [])
  | some _ => broadcast_clients { st with clients := aremove st.clients sid }

/-- The `kick` branch of the `/ws` message loop (`ws_endpoint` lines 509-515):
gated only on the access code, then `kick_session` on a truthy target. -/
def handleKickMsg (st : ServerState) (msgCode : Option (List Char))
    (target : Option (List Char)) : ServerState × List (SessId × WMsg) :=
  if st.access_code ≠ [] ∧ msgCode ≠ some st.access_code then (st, [])
  else
    match target with
    | some t => if t = [] then (st, []) else kick_session st t
    | none => (st, [])

/-- The `note` branch of the `/ws` message loop (`ws_endpoint` lines 493-506):
build the payload with the text truncated to 4000 characters, then deliver to
the listed sessions or broadcast to everyone else. -/
def handleNoteMsg (st : ServerState) (senderSid : SessId) (fromName cid : List Char)
    (text : Option (List Char)) (toSess : Option (List SessId)) (ts : Int) :
    ServerState × List (SessId × WMsg) :=
  let payload := WMsg.note fromName senderSid cid ((text.getD []).take 4000) ts
  match toSess with
  | some tgts => if tgts = [] then broadcastExceptF st senderSid payload
      else notifySessions payload st tgts
  | none => broadcastExceptF st senderSid payload

/-- Outcome of `upload_file`. -/
inductive UploadOutcome where
  | unauthorized
  | conflict
  | stored (name : Comp) (size : Nat)
  | outOfFuel
deriving DecidableEq

/-- The `require_code` gate restricted to the form-supplied code. -/
def requireCodeOk (st : ServerState) (code : Option (List Char)) : Bool :=
  decide (st.access_code = []) || decide (code = some st.access_code)

/-- The receiver set of `upload_file`: client ids with `can_receive` true and
a client id different from the uploader's form value. -/
def receiversOf (clients : List (SessId × WClient)) (cid : Option (List Char)) :
    List (List Char) :=
  (clients.filter (fun e => e.2.can_receive && decide (some e.2.client_id ≠ cid))).map
    (fun e => e.2.client_id)

/-- `[t for t in target_ids.split(",") if t]`. -/
def parseTargetIds (s : List Char) : List (List Char) :=
  (splitOnChar ',' s).filter (fun t => decide (t ≠ []))

/-- The target-set computation of `upload_file` (lines 391-408): parse the
comma-separated ids, intersect with the receivers, reject on empty, and add
the uploader back in. `Except.error` is the HTTP 409. -/
def computeTargets (clients : List (SessId × WClient)) (cid : Option (List Char))
    (target_ids : Option (List Char)) : Except Unit (Option (List (List Char))) :=
  let receivers := receiversOf clients cid
  match target_ids with
  | some s =>
    if s = [] then
      if receivers = [] then Except.error () else Except.ok none
    else
      let requested := parseTargetIds s
      let valid := requested.filter (fun t => decide (t ∈ receivers))
      if valid = [] then Except.error ()
      else
        Except.ok (some (valid ++
          (match cid with
            | some c => if c ≠ [] ∧ c ∉ valid then [c] else []
            | none => [])))
  | none => if receivers = [] then Except.error () else Except.ok none

/-- `upload_file` (`server.py` lines 380-441): code gate, receiver gate,
unique-path allocation, write, file-index update, push notification. -/
def upload_file (st : ServerState) (fileName : List Char) (contentBytes : Bytes)
    (name cid target_ids code : Option (List Char)) (ts : Int) (fuel : Nat) :
    ServerState × UploadOutcome × List (SessId × WMsg) :=
  if requireCodeOk st code = false then (st, UploadOutcome.unauthorized, [])
  else
    match computeTargets st.clients cid target_ids with
    | Except.error _ => (st, UploadOutcome.conflict, [])
    | Except.ok targets =>
      let fs1 := st.fs.ensureDir st.save_dir
      match unique_path fs1 st.save_dir fileName fuel with
      | none => (st, UploadOutcome.outOfFuel, [])
      | some dest =>
        let size := contentBytes.length
        let fs2 := fs1.setFile dest contentBytes
        let fmeta : FileMeta := ⟨targets, size, ts, sanitize_name name⟩
        let fidx := aput st.file_index (plast dest) fmeta
        let st1 : ServerState := { st with fs := fs2, file_index := fidx }
        let payload := WMsg.file (plast dest) size (sanitize_name name) cid targets ts
        match targets with
        | some tgts =>
          let r := notifyTargetsF payload st1 tgts
          (r.1, UploadOutcome.stored (plast dest) size, r.2)
        | none =>
          let r := broadcastF st1 payload
          (r.1, UploadOutcome.stored (plast dest) size, r.2)

/-! ### Peer registry (`UnifiedWidget._add_peer` / `_remove_stale_peers`)

`self.peers` maps an ip to `(name, last_seen)`; `self._chosen_ip` is the
selected destination. `time.time()` values live in an arbitrary linear
ordered commutative ring `τ` (so the development covers ℚ, the idealization
of the source's floats, while concrete witnesses evaluate over ℤ). -/

/-- The peer registry plus the currently selected destination. -/
structure PeerState (τ : Type) where
  peers : List (List Char × (List Char × τ))
  chosen : Option (List Char)
deriving DecidableEq

/-- `_add_peer`: ignore self-announcements, otherwise upsert `(name, now)`. -/
def add_peer {τ : Type} (selfIp : List Char) (st : PeerState τ) (ip nm : List Char)
    (now : τ) : PeerState τ :=
  if ip = selfIp then st
  else { st with peers := aput st.peers ip (nm, now) }

/-- The staleness test of `_remove_stale_peers`: `last_seen < now - 2 * interval`. -/
def staleAt {τ : Type} [LinearOrderedCommRing τ] (interval now : τ)
    (e : List Char × (List Char × τ)) : Bool :=
  decide (e.2.2 < now - 2 * interval)

/-- `_remove_stale_peers`: evict every stale peer and clear the selection when
the selected peer was evicted. -/
def remove_stale_peers {τ : Type} [LinearOrderedCommRing τ] (interval now : τ)
    (st : PeerState τ) : PeerState τ :=
  let removedIps := (st.peers.filter (staleAt interval now)).map (fun e => e.1)
  { peers := st.peers.filter (fun e => !staleAt interval now e),
    chosen :=
      match st.chosen with
      | some ip => if ip ∈ removedIps then none else some ip
      | none => none }

/-- One discovery-side event: an announcement arriving, or a sweep tick. -/
inductive PEvent (τ : Type) where
  | ann (ip nm : List Char) (t : τ)
  | sweep (t : τ)
deriving DecidableEq

/-- Process one event. -/
def stepEvent {τ : Type} [LinearOrderedCommRing τ] (selfIp : List Char) (interval : τ)
    (st : PeerState τ) : PEvent τ → PeerState τ
  | PEvent.ann ip nm t => add_peer selfIp st ip nm t
  | PEvent.sweep t => remove_stale_peers interval t st

/-- Process a sequence of events. -/
def runEvents {τ : Type} [LinearOrderedCommRing τ] (selfIp : List Char) (interval : τ)
    (st : PeerState τ) (es : List (PEvent τ)) : PeerState τ :=
  es.foldl (stepEvent selfIp interval) st

/-- Freshness of peer `p` along an event trace, starting from a last
announcement at time `u`: at every sweep the latest announcement of `p` is at
most one announce interval old. -/
def announcedEachInterval {τ : Type} [LinearOrderedCommRing τ] (interval : τ)
    (p : List Char) : τ → List (PEvent τ) → Bool
  | _, [] => true
  | u, PEvent.ann ip _ t :: es =>
    if ip = p then announcedEachInterval interval p t es
    else announcedEachInterval interval p u es
  | u, PEvent.sweep t :: es =>
    decide (t - u ≤ interval) && announcedEachInterval interval p u es

/-! ## Theorems -/

theorem notifySessions_sends_eq (m : WMsg) :
    ∀ (tgts : List SessId) (st : ServerState) (x : SessId × WMsg),
      x ∈ (notifySessions m st tgts).2 → x.2 = m := by
  intro tgts
  induction tgts with
  | nil => intro st x h; simp [notifySessions] at h
  | cons t ts ih =>
    intro st x h
    simp only [notifySessions, List.mem_append] at h
    rcases h with h | h
    · unfold notifySessionF at h
      rcases hl : alookup st.clients t with _ | info
      · rw [hl] at h; simp at h
      · rw [hl] at h
        by_cases hs : info.sendOk = true
        · simp only [hs, if_true, List.mem_singleton] at h
          rw [h]
        · simp only [Bool.not_eq_true] at hs
          simp [hs] at h
    · exact ih _ x h

theorem broadcastExceptF_sends_eq (st : ServerState) (sid : SessId) (m : WMsg)
    (x : SessId × WMsg) (hx : x ∈ (broadcastExceptF st sid m).2) : x.2 = m := by
  simp only [broadcastExceptF] at hx
  rw [List.mem_map] at hx
  obtain ⟨e, _, he⟩ := hx
  rw [← he]

/-- C10: every note relayed through `/ws` carries the client-supplied text
truncated to its first 4000 characters, a missing text field becomes the
empty string, and the delivered text never exceeds 4000 characters. -/
theorem note_text_truncated (st : ServerState) (sid : SessId) (nm cid : List Char)
    (text : Option (List Char)) (toSess : Option (List SessId)) (ts : Int) :
    (∀ x ∈ (handleNoteMsg st sid nm cid text toSess ts).2,
        x.2.noteText = some ((text.getD []).take 4000)) ∧
    ((text.getD []).take 4000).length ≤ 4000 ∧
    (text = none → (text.getD []).take 4000 = []) := by
  refine ⟨?_, ?_, ?_⟩
  · intro x hx
    have hxm : x.2 = WMsg.note nm sid cid ((text.getD []).take 4000) ts := by
      rcases toSess with _ | tgts
      · exact broadcastExceptF_sends_eq st sid _ x hx
      · by_cases ht : tgts = []
        · subst ht
          exact broadcastExceptF_sends_eq st sid _ x hx
        · have hx' : x ∈ (notifySessions
              (WMsg.note nm sid cid ((text.getD []).take 4000) ts) st tgts).2 := by
            simpa only [handleNoteMsg, if_neg ht] using hx
          exact notifySessions_sends_eq _ tgts st x hx'
    rw [hxm, WMsg.noteText]
  · rw [List.length_take]; exact Nat.min_le_left _ _
  · intro h; rw [h]; rfl

/-- Witness for `note_text_truncated` at a concrete state and message. -/
theorem note_text_truncated_witness :
    (("s2".toList, WMsg.note "n".toList "s1".toList "c1".toList "hi".toList 0) ∈
      (handleNoteMsg
        ⟨[], [], [("s1".toList, ⟨"c1".toList, "n".toList, true, false, true⟩),
          ("s2".toList, ⟨"c2".toList, "m".toList, true, false, true⟩)], [], ⟨[], []⟩⟩
        "s1".toList "n".toList "c1".toList (some "hi".toList) none 0).2) ∧
    (WMsg.note "n".toList "s1".toList "c1".toList "hi".toList 0).noteText =
      some (((some "hi".toList).getD []).take 4000) := by
  refine ⟨by decide, ?_⟩
  exact (note_text_truncated
    ⟨[], [], [("s1".toList, ⟨"c1".toList, "n".toList, true, false, true⟩),
      ("s2".toList, ⟨"c2".toList, "m".toList, true, false, true⟩)], [], ⟨[], []⟩⟩
    "s1".toList "n".toList "c1".toList (some "hi".toList) none 0).1
    ("s2".toList, WMsg.note "n".toList "s1".toList "c1".toList "hi".toList 0) (by decide)

/-- C7 counterexample: in a registry where session `s3`'s channel fails, a
broadcast note drops `s3` from the registry but pushes no fresh roster to the
remaining clients — the only delivered message is the note itself, refuting
the claim that a roster broadcast follows the prune. -/
theorem send_failure_no_roster_cex :
    let st : ServerState :=
      ⟨[], [], [("s1".toList, ⟨"c1".toList, "a".toList, true, false, true⟩),
        ("s2".toList, ⟨"c2".toList, "b".toList, true, false, true⟩),
        ("s3".toList, ⟨"c3".toList, "c".toList, true, false, false⟩)], [], ⟨[], []⟩⟩
    let r := handleNoteMsg st "s1".toList "a".toList "c1".toList (some "x".toList) none 0
    alookup st.clients "s3".toList ≠ none ∧
    alookup r.1.clients "s3".toList = none ∧
    r.2.all (fun x => !x.2.isRoster) = true ∧
    r.2.length = 1 := by
  decide

theorem notifySessionF_alookup_none (st : ServerState) (s : SessId) (m : WMsg)
    (x : SessId) (h : alookup st.clients x = none) :
    alookup (notifySessionF st s m).1.clients x = none := by
  unfold notifySessionF
  rcases hl : alookup st.clients s with _ | info
  · exact h
  · by_cases hs : info.sendOk = true
    · simp only [hs, if_true]
      exact h
    · simp only [Bool.not_eq_true] at hs
      simp only [hs, Bool.false_eq_true, if_false]
      exact alookup_filter_none _ _ _ h

theorem notifySessions_alookup_none (m : WMsg) :
    ∀ (tgts : List SessId) (st : ServerState) (x : SessId),
      alookup st.clients x = none →
      alookup (notifySessions m st tgts).1.clients x = none := by
  intro tgts
  induction tgts with
  | nil => intro st x h; exact h
  | cons t ts ih =>
    intro st x h
    simp only [notifySessions]
    exact ih _ x (notifySessionF_alookup_none st t m x h)

theorem notifySessions_drops_failed (m : WMsg) :
    ∀ (tgts : List SessId) (st : ServerState) (t : SessId) (info : WClient),
      t ∈ tgts → alookup st.clients t = some info → info.sendOk = false →
      alookup (notifySessions m st tgts).1.clients t = none := by
  intro tgts
  induction tgts with
  | nil => intro st t info hmem _ _; simp at hmem
  | cons h ts ih =>
    intro st t info hmem hlk hdead
    simp only [notifySessions]
    by_cases hht : h = t
    · subst hht
      have hstep : alookup (notifySessionF st h m).1.clients h = none := by
        unfold notifySessionF
        rw [hlk]
        simp only [hdead, Bool.false_eq_true, if_false]
        exact alookup_aremove_same _ _
      exact notifySessions_alookup_none m ts _ h hstep
    · rcases List.mem_cons.mp hmem with he | hmem'
      · exact absurd he.symm hht
      · have hpres : alookup (notifySessionF st h m).1.clients t = some info := by
          unfold notifySessionF
          rcases hl : alookup st.clients h with _ | i
          · exact hlk
          · by_cases hs : i.sendOk = true
            · simp only [hs, if_true]
              exact hlk
            · simp only [Bool.not_eq_true] at hs
              simp only [hs, Bool.false_eq_true, if_false]
              rw [alookup_aremove_ne _ _ _ (fun heq => hht heq.symm)]
              exact hlk
        exact ih _ t info hmem' hpres hdead

/-- C7 (amended): a send failure on an individual channel during a broadcast
or a targeted delivery drops that channel from the client registry, and no
fresh roster is broadcast as part of the prune — every delivered message is a
copy of the note payload itself. The broadcast path's pruned registry and
delivery set are characterized exactly; on the targeted path every listed
session whose channel fails is dropped from the registry. -/
theorem send_failure_prunes_without_roster (st : ServerState) (sid : SessId)
    (nm cid : List Char) (text : Option (List Char)) (ts : Int)
    (tgts : List SessId) (t : SessId) (info : WClient) :
    ((handleNoteMsg st sid nm cid text none ts).1.clients
      = st.clients.filter (fun e => decide (e.1 = sid) || e.2.sendOk)) ∧
    ((handleNoteMsg st sid nm cid text none ts).2
      = (st.clients.filter (fun e => decide (e.1 ≠ sid) && e.2.sendOk)).map
          (fun e => (e.1, WMsg.note nm sid cid ((text.getD []).take 4000) ts))) ∧
    (tgts ≠ [] → t ∈ tgts → alookup st.clients t = some info → info.sendOk = false →
      alookup (handleNoteMsg st sid nm cid text (some tgts) ts).1.clients t = none) ∧
    (∀ x ∈ (handleNoteMsg st sid nm cid text (some tgts) ts).2,
      x.2 = WMsg.note nm sid cid ((text.getD []).take 4000) ts) ∧
    WMsg.isRoster (WMsg.note nm sid cid ((text.getD []).take 4000) ts) = false := by
  refine ⟨rfl, rfl, ?_, ?_, rfl⟩
  · intro htne hmem hlk hdead
    have hred : (handleNoteMsg st sid nm cid text (some tgts) ts)
        = notifySessions (WMsg.note nm sid cid ((text.getD []).take 4000) ts) st tgts := by
      simp only [handleNoteMsg, if_neg htne]
    rw [hred]
    exact notifySessions_drops_failed _ tgts st t info hmem hlk hdead
  · intro x hx
    by_cases htne : tgts = []
    · subst htne
      rw [show handleNoteMsg st sid nm cid text (some []) ts
          = broadcastExceptF st sid (WMsg.note nm sid cid ((text.getD []).take 4000) ts)
          from rfl] at hx
      exact broadcastExceptF_sends_eq st sid _ x hx
    · rw [show handleNoteMsg st sid nm cid text (some tgts) ts
          = notifySessions (WMsg.note nm sid cid ((text.getD []).take 4000) ts) st tgts
          from by simp only [handleNoteMsg, if_neg htne]] at hx
      exact notifySessions_sends_eq _ tgts st x hx

/-- Witness for `send_failure_prunes_without_roster`: a targeted note to
sessions `s2` (healthy) and `s3` (failing channel) drops `s3` from the
registry while `s2` receives only the note payload. -/
theorem send_failure_prunes_without_roster_witness :
    let st : ServerState :=
      ⟨[], [], [("s1".toList, ⟨"c1".toList, "a".toList, true, false, true⟩),
        ("s2".toList, ⟨"c2".toList, "b".toList, true, false, true⟩),
        ("s3".toList, ⟨"c3".toList, "c".toList, true, false, false⟩)], [], ⟨[], []⟩⟩
    ((["s2".toList, "s3".toList] : List SessId) ≠ [] ∧
      "s3".toList ∈ (["s2".toList, "s3".toList] : List SessId) ∧
      alookup st.clients "s3".toList
        = some ⟨"c3".toList, "c".toList, true, false, false⟩ ∧
      (⟨"c3".toList, "c".toList, true, false, false⟩ : WClient).sendOk = false ∧
      ("s2".toList, WMsg.note "a".toList "s1".toList "c1".toList "x".toList 0) ∈
        (handleNoteMsg st "s1".toList "a".toList "c1".toList (some "x".toList)
          (some ["s2".toList, "s3".toList]) 0).2) ∧
    alookup (handleNoteMsg st "s1".toList "a".toList "c1".toList (some "x".toList)
        (some ["s2".toList, "s3".toList]) 0).1.clients "s3".toList = none ∧
    ("s2".toList, WMsg.note "a".toList "s1".toList "c1".toList "x".toList 0).2
      = WMsg.note "a".toList "s1".toList "c1".toList
          (((some "x".toList).getD []).take 4000) 0 := by
  refine ⟨⟨by decide, by decide, by decide, by decide, by decide⟩, ?_, ?_⟩
  · exact (send_failure_prunes_without_roster
      (ServerState.mk [] [] [("s1".toList, ⟨"c1".toList, "a".toList, true, false, true⟩),
        ("s2".toList, ⟨"c2".toList, "b".toList, true, false, true⟩),
        ("s3".toList, ⟨"c3".toList, "c".toList, true, false, false⟩)] [] ⟨[], []⟩)
      "s1".toList "a".toList "c1".toList
      (some "x".toList) 0 ["s2".toList, "s3".toList] "s3".toList
      ⟨"c3".toList, "c".toList, true, false, false⟩).2.2.1
      (by decide) (by decide) (by decide) (by decide)
  · exact (send_failure_prunes_without_roster
      (ServerState.mk [] [] [("s1".toList, ⟨"c1".toList, "a".toList, true, false, true⟩),
        ("s2".toList, ⟨"c2".toList, "b".toList, true, false, true⟩),
        ("s3".toList, ⟨"c3".toList, "c".toList, true, false, false⟩)] [] ⟨[], []⟩)
      "s1".toList "a".toList "c1".toList
      (some "x".toList) 0 ["s2".toList, "s3".toList] "s3".toList
      ⟨"c3".toList, "c".toList, true, false, false⟩).2.2.2.1
      ("s2".toList, WMsg.note "a".toList "s1".toList "c1".toList "x".toList 0)
      (by decide)

/-- C6 counterexample: with no access code configured, a `kick` message in a
registry where no connected client holds the admin flag (and whose sender's
transport address is neither loopback nor the host's LAN address, so
`is_admin_request` denies it) still removes the target session — the kick
branch of `ws_endpoint` never consults admin authority, refuting the claim
that a non-admin kick is rejected and leaves the registry unchanged. -/
theorem kick_without_admin_cex :
    let st : ServerState :=
      ⟨[], [], [("s1".toList, ⟨"c1".toList, "a".toList, true, false, true⟩),
        ("s2".toList, ⟨"c2".toList, "b".toList, true, false, true⟩)], [], ⟨[], []⟩⟩
    (∀ e ∈ st.clients, e.2.is_admin = false) ∧
    is_admin_request st.clients (some "c1".toList) "203.0.113.5".toList
      "192.168.1.2".toList = false ∧
    alookup st.clients "s2".toList ≠ none ∧
    alookup (handleKickMsg st none (some "s2".toList)).1.clients "s2".toList = none ∧
    (handleKickMsg st none (some "s2".toList)).1.clients ≠ st.clients := by
  decide

/-- C6 (amended): kicking a session is gated only by the configured access
code, not by admin authority: when an access code is configured and the
message's code differs, the kick is ignored and the registry is unchanged;
otherwise a kick naming any present session removes it from the registry,
with no admin-authority hypothesis. -/
theorem kick_gated_by_code_only (st : ServerState) (msgCode : Option (List Char))
    (target : Option (List Char)) (t : List Char) (info : WClient) :
    (st.access_code ≠ [] → msgCode ≠ some st.access_code →
      handleKickMsg st msgCode target = (st, [])) ∧
    (target = some t → t ≠ [] →
      (st.access_code = [] ∨ msgCode = some st.access_code) →
      alookup st.clients t = some info →
      alookup (handleKickMsg st msgCode target).1.clients t = none) := by
  constructor
  · intro h1 h2
    unfold handleKickMsg
    rw [if_pos ⟨h1, h2⟩]
  · intro ht hne hcode hlk
    subst ht
    have hgate : ¬ (st.access_code ≠ [] ∧ msgCode ≠ some st.access_code) := by
      rcases hcode with h | h
      · intro hc; exact hc.1 h
      · intro hc; exact hc.2 h
    unfold handleKickMsg
    rw [if_neg hgate]
    simp only [if_neg hne]
    unfold kick_session
    rw [hlk]
    simp only [broadcast_clients, broadcastF]
    exact alookup_filter_none _ _ _ (alookup_aremove_same st.clients t)

/-- Witness for `kick_gated_by_code_only` at a concrete state. -/
theorem kick_gated_by_code_only_witness :
    let st : ServerState :=
      ⟨"pw".toList, [], [("s1".toList, ⟨"c1".toList, "a".toList, true, false, true⟩),
        ("s2".toList, ⟨"c2".toList, "b".toList, true, false, true⟩)], [], ⟨[], []⟩⟩
    (st.access_code ≠ [] ∧ ("s2".toList : List Char) ≠ [] ∧
      (st.access_code = [] ∨ some "pw".toList = some st.access_code) ∧
      alookup st.clients "s2".toList = some ⟨"c2".toList, "b".toList, true, false, true⟩) ∧
    (handleKickMsg st (some "no".toList) (some "s2".toList) = (st, []) ∧
      alookup (handleKickMsg st (some "pw".toList) (some "s2".toList)).1.clients
        "s2".toList = none) := by
  refine ⟨⟨by decide, by decide, by decide, by decide⟩, ?_, ?_⟩
  · exact (kick_gated_by_code_only _ (some "no".toList) (some "s2".toList)
      "s2".toList ⟨"c2".toList, "b".toList, true, false, true⟩).1
      (by decide) (by decide)
  · exact (kick_gated_by_code_only _ (some "pw".toList) (some "s2".toList)
      "s2".toList ⟨"c2".toList, "b".toList, true, false, true⟩).2
      rfl (by decide) (by decide) (by decide)

theorem receiversOf_nil_of_no_other (clients : List (SessId × WClient))
    (cid : Option (List Char))
    (h : ∀ e ∈ clients, e.2.can_receive = true → some e.2.client_id = cid) :
    receiversOf clients cid = [] := by
  unfold receiversOf
  rw [List.map_eq_nil_iff]
  rw [List.filter_eq_nil_iff]
  intro e he
  by_cases hc : e.2.can_receive = true
  · have := h e he hc
    simp [hc, this]
  · simp only [Bool.not_eq_true] at hc
    simp [hc]

theorem computeTargets_error_of_no_receivers (clients : List (SessId × WClient))
    (cid : Option (List Char)) (target_ids : Option (List Char))
    (h : receiversOf clients cid = []) :
    computeTargets clients cid target_ids = Except.error () := by
  unfold computeTargets
  rw [h]
  rcases target_ids with _ | s
  · simp
  · by_cases hs : s = []
    · simp [hs]
    · simp only [if_neg hs]
      have hv : (parseTargetIds s).filter (fun t => decide (t ∈ ([] : List (List Char)))) = [] := by
        rw [List.filter_eq_nil_iff]
        intro t _
        simp
      rw [hv]
      simp

theorem notifySessionF_file_index (st : ServerState) (sid : SessId) (m : WMsg) :
    (notifySessionF st sid m).1.file_index = st.file_index := by
  unfold notifySessionF
  rcases alookup st.clients sid with _ | info
  · rfl
  · by_cases hs : info.sendOk = true
    · simp [hs]
    · simp only [Bool.not_eq_true] at hs
      simp [hs]

theorem notifySessions_file_index (m : WMsg) :
    ∀ (tgts : List SessId) (st : ServerState),
      (notifySessions m st tgts).1.file_index = st.file_index := by
  intro tgts
  induction tgts with
  | nil => intro st; rfl
  | cons t ts ih =>
    intro st
    simp only [notifySessions]
    rw [ih]
    exact notifySessionF_file_index st t m

theorem notifyTargetF_file_index (st : ServerState) (tid : List Char) (m : WMsg) :
    (notifyTargetF st tid m).1.file_index = st.file_index := by
  unfold notifyTargetF
  exact notifySessions_file_index m _ st

theorem notifyTargetsF_file_index (m : WMsg) :
    ∀ (tids : List (List Char)) (st : ServerState),
      (notifyTargetsF m st tids).1.file_index = st.file_index := by
  intro tids
  induction tids with
  | nil => intro st; rfl
  | cons t ts ih =>
    intro st
    simp only [notifyTargetsF]
    rw [ih]
    exact notifyTargetF_file_index st t m

theorem computeTargets_some_spec (clients : List (SessId × WClient)) (u s : List Char)
    (tg : Option (List (List Char)))
    (hu : u ≠ []) (hs : s ≠ [])
    (hok : computeTargets clients (some u) (some s) = Except.ok tg) :
    ∃ tset, tg = some tset ∧
      ∀ x, x ∈ tset ↔
        ((x ∈ parseTargetIds s ∧ x ∈ receiversOf clients (some u)) ∨ x = u) := by
  simp only [computeTargets] at hok
  rw [if_neg hs] at hok
  set receivers := receiversOf clients (some u) with hrec
  set valid := (parseTargetIds s).filter (fun t => decide (t ∈ receivers)) with hvalid
  by_cases hv : valid = []
  · rw [if_pos hv] at hok
    exact absurd hok (by simp)
  · rw [if_neg hv] at hok
    simp only [Except.ok.injEq] at hok
    refine ⟨valid ++ (if u ≠ [] ∧ u ∉ valid then [u] else []), hok.symm, ?_⟩
    intro x
    constructor
    · intro hx
      rw [List.mem_append] at hx
      rcases hx with hx | hx
      · rw [hvalid, List.mem_filter] at hx
        exact Or.inl ⟨hx.1, by simpa using hx.2⟩
      · by_cases hc : u ≠ [] ∧ u ∉ valid
        · rw [if_pos hc] at hx
          rw [List.mem_singleton] at hx
          exact Or.inr hx
        · rw [if_neg hc] at hx
          simp at hx
    · intro hx
      rw [List.mem_append]
      rcases hx with ⟨hx1, hx2⟩ | hx
      · refine Or.inl ?_
        rw [hvalid, List.mem_filter]
        exact ⟨hx1, by simpa using hx2⟩
      · by_cases hc : u ∈ valid
        · exact Or.inl (hx ▸ hc)
        · refine Or.inr ?_
          rw [if_pos ⟨hu, hc⟩, List.mem_singleton]
          exact hx

/-- C5: an upload while no connected client other than the uploader can
receive is rejected with HTTP 409 and changes nothing (no file written, no
file-index entry, no notification); and a successful upload with explicit
target ids stores, as its target set, the intersection of the requested ids
with the connected receivers' client ids, with the uploader's id added back
in. -/
theorem upload_gate_and_targets (st : ServerState) (fileName : List Char)
    (contentBytes : Bytes) (name code : Option (List Char))
    (cid : Option (List Char)) (tids : Option (List Char))
    (u s : List Char) (tg : Option (List (List Char))) (dest : FPath)
    (ts : Int) (fuel : Nat) :
    (requireCodeOk st code = true →
      (∀ e ∈ st.clients, e.2.can_receive = true → some e.2.client_id = cid) →
      upload_file st fileName contentBytes name cid tids code ts fuel
        = (st, UploadOutcome.conflict, [])) ∧
    (requireCodeOk st code = true → u ≠ [] → s ≠ [] →
      computeTargets st.clients (some u) (some s) = Except.ok tg →
      unique_path (st.fs.ensureDir st.save_dir) st.save_dir fileName fuel = some dest →
      ∃ tset, tg = some tset ∧
        (∀ x, x ∈ tset ↔
          ((x ∈ parseTargetIds s ∧ x ∈ receiversOf st.clients (some u)) ∨ x = u)) ∧
        alookup (upload_file st fileName contentBytes name (some u) (some s) code ts fuel).1.file_index
            (plast dest)
          = some ⟨some tset, contentBytes.length, ts, sanitize_name name⟩) := by
  constructor
  · intro hcode hno
    have hrec := receiversOf_nil_of_no_other st.clients cid hno
    have herr := computeTargets_error_of_no_receivers st.clients cid tids hrec
    unfold upload_file
    rw [hcode]
    simp only [Bool.true_eq_false, if_false]
    rw [herr]
  · intro hcode hu hs hok hup
    obtain ⟨tset, htg, hspec⟩ := computeTargets_some_spec st.clients u s tg hu hs hok
    refine ⟨tset, htg, hspec, ?_⟩
    subst htg
    unfold upload_file
    rw [hcode]
    simp only [Bool.true_eq_false, if_false]
    rw [hok, hup]
    simp only
    rw [notifyTargetsF_file_index]
    simp only
    exact alookup_aput_same _ _ _

/-- Witness for `upload_gate_and_targets`: a concrete 409 with no receivers,
and a concrete stored target set with explicit ids. -/
theorem upload_gate_and_targets_witness :
    let stA : ServerState :=
      ⟨[], ["d".toList], [("s1".toList, ⟨"c1".toList, "a".toList, true, false, true⟩)],
        [], ⟨[], []⟩⟩
    let stB : ServerState :=
      ⟨[], ["d".toList], [("s1".toList, ⟨"c1".toList, "a".toList, true, false, true⟩),
        ("s2".toList, ⟨"c2".toList, "b".toList, true, false, true⟩)], [], ⟨[], []⟩⟩
    (requireCodeOk stA none = true ∧
      (∀ e ∈ stA.clients, e.2.can_receive = true → some e.2.client_id = some "c1".toList) ∧
      requireCodeOk stB none = true ∧ ("c1".toList : List Char) ≠ [] ∧
      ("c2".toList : List Char) ≠ [] ∧
      computeTargets stB.clients (some "c1".toList) (some "c2".toList)
        = Except.ok (some ["c2".toList, "c1".toList]) ∧
      unique_path (stB.fs.ensureDir stB.save_dir) stB.save_dir "f.txt".toList 1
        = some ["d".toList, "f.txt".toList]) ∧
    upload_file stA "f.txt".toList [1, 2] none (some "c1".toList) none none 0 1
      = (stA, UploadOutcome.conflict, []) ∧
    (∃ tset, (some ["c2".toList, "c1".toList] : Option (List (List Char))) = some tset ∧
      (∀ x, x ∈ tset ↔
        ((x ∈ parseTargetIds "c2".toList ∧
          x ∈ receiversOf stB.clients (some "c1".toList)) ∨ x = "c1".toList)) ∧
      alookup (upload_file stB "f.txt".toList [1, 2] none (some "c1".toList)
          (some "c2".toList) none 0 1).1.file_index
          (plast ["d".toList, "f.txt".toList])
        = some ⟨some tset, ([1, 2] : Bytes).length, 0, sanitize_name none⟩) := by
  refine ⟨⟨by decide, by decide, by decide, by decide, by decide, by rfl, by rfl⟩, ?_, ?_⟩
  · exact (upload_gate_and_targets _ "f.txt".toList [1, 2] none none
      (some "c1".toList) none "c1".toList "c2".toList
      (some ["c2".toList, "c1".toList]) ["d".toList, "f.txt".toList] 0 1).1
      (by decide) (by decide)
  · exact (upload_gate_and_targets _ "f.txt".toList [1, 2] none none
      (some "c1".toList) none "c1".toList "c2".toList
      (some ["c2".toList, "c1".toList]) ["d".toList, "f.txt".toList] 0 1).2
      (by decide) (by decide) (by decide) (by rfl) (by rfl)

theorem peer_survives_trace {τ : Type} [LinearOrderedCommRing τ]
    (selfIp : List Char) (I : τ) (hI : 0 < I) (p : List Char) (hp : p ≠ selfIp) :
    ∀ (es : List (PEvent τ)) (st : PeerState τ) (nm : List Char) (u : τ),
      alookup st.peers p = some (nm, u) →
      announcedEachInterval I p u es = true →
      (alookup (runEvents selfIp I st es).peers p).isSome = true := by
  intro es
  induction es with
  | nil =>
    intro st nm u hlk _
    simp [runEvents, hlk]
  | cons e es ih =>
    intro st nm u hlk hfresh
    rcases e with ⟨ip, nm', t⟩ | t
    · simp only [runEvents, List.foldl_cons, stepEvent]
      by_cases hip : ip = p
      · subst hip
        rw [announcedEachInterval, if_pos rfl] at hfresh
        have hlk' : alookup (add_peer selfIp st ip nm' t).peers ip = some (nm', t) := by
          unfold add_peer
          rw [if_neg hp]
          exact alookup_aput_same _ _ _
        exact ih (add_peer selfIp st ip nm' t) nm' t hlk' hfresh
      · rw [announcedEachInterval, if_neg hip] at hfresh
        have hlk' : alookup (add_peer selfIp st ip nm' t).peers p = some (nm, u) := by
          unfold add_peer
          by_cases hself : ip = selfIp
          · rw [if_pos hself]; exact hlk
          · rw [if_neg hself]
            simp only
            rw [alookup_aput_ne _ _ _ _ (fun h => hip h.symm)]
            exact hlk
        exact ih _ nm u hlk' hfresh
    · rw [announcedEachInterval, Bool.and_eq_true, decide_eq_true_eq] at hfresh
      simp only [runEvents, List.foldl_cons, stepEvent]
      have hkeep : (fun e => !staleAt I t e) (p, (nm, u)) = true := by
        simp only [staleAt, Bool.not_eq_true', decide_eq_false_iff_not, not_lt]
        have h2 : t - u ≤ I := hfresh.1
        nlinarith
      have hlk' : alookup (remove_stale_peers I t st).peers p = some (nm, u) := by
        unfold remove_stale_peers
        exact alookup_filter_of_keep _ _ _ _ hlk hkeep
      exact ih _ nm u hlk' hfresh.2

/-- C8: after a sweep at time `now`, a peer whose last announcement is more
than `2 × announceInterval` old is gone from the registry; a peer announced
within the last interval is retained (and, by trace induction, one announced
at least once per interval along any event sequence stays present); and when
the evicted peer was the selected destination the selection is cleared. -/
theorem peer_staleness_and_selection {τ : Type} [LinearOrderedCommRing τ]
    (I now : τ) (hI : 0 < I) (st : PeerState τ) (selfIp p ip nm : List Char)
    (u : τ) (es : List (PEvent τ)) :
    ((st.peers.map (fun e => e.1)).Nodup → alookup st.peers ip = some (nm, u) →
      2 * I < now - u → alookup (remove_stale_peers I now st).peers ip = none) ∧
    (alookup st.peers ip = some (nm, u) → now - u ≤ I →
      alookup (remove_stale_peers I now st).peers ip = some (nm, u)) ∧
    (st.chosen = some ip → alookup st.peers ip = some (nm, u) → 2 * I < now - u →
      (remove_stale_peers I now st).chosen = none) ∧
    (p ≠ selfIp → alookup st.peers p = some (nm, u) →
      announcedEachInterval I p u es = true →
      (alookup (runEvents selfIp I st es).peers p).isSome = true) := by
  have hstale : 2 * I < now - u → staleAt I now (ip, (nm, u)) = true := by
    intro h
    simp only [staleAt, decide_eq_true_eq]
    linarith
  refine ⟨?_, ?_, ?_, ?_⟩
  · intro hnd hlk hold
    unfold remove_stale_peers
    refine alookup_filter_of_drop _ _ _ _ hnd hlk ?_
    simp [hstale hold]
  · intro hlk hfresh
    unfold remove_stale_peers
    refine alookup_filter_of_keep _ _ _ _ hlk ?_
    simp only [staleAt, Bool.not_eq_true', decide_eq_false_iff_not, not_lt]
    nlinarith
  · intro hch hlk hold
    unfold remove_stale_peers
    simp only [hch]
    rw [if_pos]
    exact List.mem_map_of_mem (fun e => e.1)
      (List.mem_filter.mpr ⟨alookup_some_mem _ _ _ hlk, hstale hold⟩)
  · intro hp hlk hfresh
    exact peer_survives_trace selfIp I hI p hp es st nm u hlk hfresh

/-- Witness for `peer_staleness_and_selection` over integer timestamps:
interval 2, sweep at time 10, peer `a` last seen at 3 (stale, also the
selection), peer `b` last seen at 9 (fresh), and a trace keeping `b` alive. -/
theorem peer_staleness_and_selection_witness :
    let st : PeerState ℤ :=
      ⟨[("a".toList, ("x".toList, 3)), ("b".toList, ("y".toList, 9))], some "a".toList⟩
    let es : List (PEvent ℤ) :=
      [PEvent.sweep 10, PEvent.ann "b".toList "y".toList 11, PEvent.sweep 12]
    ((0 : ℤ) < 2 ∧ (st.peers.map (fun e => e.1)).Nodup ∧
      alookup st.peers "a".toList = some ("x".toList, 3) ∧
      (2 : ℤ) * 2 < 10 - 3 ∧
      alookup st.peers "b".toList = some ("y".toList, 9) ∧
      (10 : ℤ) - 9 ≤ 2 ∧ st.chosen = some "a".toList ∧
      "b".toList ≠ "self".toList ∧
      announcedEachInterval (2 : ℤ) "b".toList 9 es = true) ∧
    alookup (remove_stale_peers (2 : ℤ) 10 st).peers "a".toList = none ∧
    alookup (remove_stale_peers (2 : ℤ) 10 st).peers "b".toList = some ("y".toList, 9) ∧
    (remove_stale_peers (2 : ℤ) 10 st).chosen = none ∧
    (alookup (runEvents "self".toList (2 : ℤ) st es).peers "b".toList).isSome = true := by
  refine ⟨⟨by decide, by decide, by decide, by decide, by decide, by decide, by decide,
    by decide, by decide⟩, ?_, ?_, ?_, ?_⟩
  · exact (peer_staleness_and_selection (2 : ℤ) 10 (by decide) _ "self".toList "b".toList
      "a".toList "x".toList 3 []).1 (by decide) (by decide) (by decide)
  · exact (peer_staleness_and_selection (2 : ℤ) 10 (by decide) _ "self".toList "b".toList
      "b".toList "y".toList 9 []).2.1 (by decide) (by decide)
  · exact (peer_staleness_and_selection (2 : ℤ) 10 (by decide) _ "self".toList "b".toList
      "a".toList "x".toList 3 []).2.2.1 (by decide) (by decide) (by decide)
  · exact (peer_staleness_and_selection (2 : ℤ) 10 (by decide) _ "self".toList "b".toList
      "b".toList "y".toList 9 _).2.2.2 (by decide) (by decide) (by decide)

theorem pyName_not_dot (s : List Char) : pyName s ≠ ['.'] := by
  unfold pyName
  rcases h : (pyNameParts s).getLast? with _ | c
  · simp
  · have hc := List.mem_of_mem_getLast? h
    unfold pyNameParts at hc
    have := List.of_mem_filter hc
    simp only [decide_eq_true_eq] at this
    simpa using this.2

theorem pjoin_of_ne (d : FPath) (c : Comp) (h1 : c ≠ []) (h2 : c ≠ ['.']) :
    pjoin d c = d ++ [c] := by
  unfold pjoin
  rw [if_neg]
  rintro (h | h)
  · exact h1 h
  · exact h2 h

theorem plast_concat (d : FPath) (c : Comp) : plast (d ++ [c]) = c := by
  unfold plast
  rw [List.getLast?_concat]
  rfl

theorem pparent_concat (d : FPath) (c : Comp) : pparent (d ++ [c]) = d :=
  List.dropLast_concat

theorem natCharsAux_length_pos (f n : Nat) : 1 ≤ (natCharsAux (f + 1) n).length := by
  unfold natCharsAux
  by_cases h : n < 10
  · simp [h]
  · simp [h]

theorem numberedName_length (b e : Comp) (n : Nat) :
    4 ≤ (numberedName b e n).length := by
  have h1 := natCharsAux_length_pos n n
  simp only [numberedName, natChars, List.length_append]
  have h2 : (" (".toList).length = 2 := by decide
  have h3 : (")".toList).length = 1 := by decide
  omega

theorem numberedName_normal (b e : Comp) (n : Nat) :
    normalComp (numberedName b e n) = true := by
  have h4 := numberedName_length b e n
  simp only [normalComp, decide_eq_true_eq]
  refine ⟨?_, ?_, ?_⟩ <;> intro h <;> rw [h] at h4 <;> simp at h4

/-- C2 counterexample: with only `"a (1).txt"` present in the destination
directory, the fresh-transfer path (and `unique_path`) allocate `"a.txt"` —
the first free name — while the resume path's allocation loop allocates
`"a (2).txt"`: the two receive paths do not run the same allocation function,
so a resumed transfer whose name was freed but whose `" (1)"` variant exists
does not continue the name the fresh path would pick. -/
theorem resume_alloc_differs_cex :
    let dir : FPath := ["d".toList]
    let fs : FS := ⟨[(["d".toList, "a (1).txt".toList], [9])], [["d".toList]]⟩
    freshPathAlloc fs dir "a.txt".toList 5 = some ["d".toList, "a.txt".toList] ∧
    unique_path fs dir "a.txt".toList 5 = some ["d".toList, "a.txt".toList] ∧
    resumePathAlloc fs dir "a.txt".toList 5 = some ["d".toList, "a (2).txt".toList] ∧
    fs.pexists ["d".toList, "a.txt".toList] = false ∧
    (handleFresh dir ⟨[], fs⟩ "a.txt".toList 5 [1, 2, 3, 4, 5] 5).map
      (fun r => r.finalPath) = some ["d".toList, "a.txt".toList] ∧
    (handleResume dir ⟨[], fs⟩ "a.txt".toList 5 (fun _ => [1, 2, 3, 4, 5]) 5).map
      (fun r => r.finalPath) = some ["d".toList, "a (2).txt".toList] ∧
    (["d".toList, "a (2).txt".toList] : FPath) ≠ ["d".toList, "a.txt".toList] := by
  decide

/-- The `n`-th numbered candidate tried by `unique_path`. -/
def uniqueCand (dir : FPath) (filename : List Char) (n : Nat) : FPath :=
  pjoin dir (numberedName (pyStem (plast (pjoin dir (pyName filename))))
    (pySuffix (plast (pjoin dir (pyName filename)))) n)

/-- C2 (amended): the fresh-transfer path of the receiver and `unique_path`
of the web server do run the same allocation — both return the first free
name in the sequence `name, name (1), name (2), …` — but the resume path's
allocator is a different function (see `resume_alloc_differs_cex`); stability
across fresh and resume holds only through a surviving table entry or an
on-disk `.part` file, not through re-allocation. -/
theorem fresh_alloc_eq_unique_path (fs : FS) (dir : FPath) (filename : List Char)
    (fuel : Nat) (p : FPath) :
    (pyName filename ≠ [] →
      freshPathAlloc fs dir filename (fuel + 1) = unique_path fs dir filename fuel) ∧
    (unique_path fs dir filename fuel = some p →
      (fs.pexists (pjoin dir (pyName filename)) = false ∧
        p = pjoin dir (pyName filename)) ∨
      (fs.pexists (pjoin dir (pyName filename)) = true ∧
        ∃ j, 1 ≤ j ∧ p = uniqueCand dir filename j ∧
          fs.pexists (uniqueCand dir filename j) = false ∧
          ∀ m, 1 ≤ m → m < j → fs.pexists (uniqueCand dir filename m) = true)) := by
  constructor
  · intro hname
    have hdot := pyName_not_dot filename
    have hdest : pjoin dir (pyName filename) = dir ++ [pyName filename] :=
      pjoin_of_ne _ _ hname hdot
    have hmk : mkNumbered (pjoin dir (pyName filename)) = fun n =>
        pjoin dir (numberedName (pyStem (plast (pjoin dir (pyName filename))))
          (pySuffix (plast (pjoin dir (pyName filename)))) n) := by
      funext n
      have hnn := numberedName_normal (pyStem (plast (pjoin dir (pyName filename))))
        (pySuffix (plast (pjoin dir (pyName filename)))) n
      simp only [normalComp, decide_eq_true_eq] at hnn
      unfold mkNumbered
      rw [pjoin_of_ne _ _ hnn.1 hnn.2.1]
      rw [hdest, pparent_concat]
    simp only [freshPathAlloc, unique_path]
    rw [hmk]
    by_cases hex : fs.pexists (pjoin dir (pyName filename)) = true
    · rw [if_pos hex]
      show freshAllocLoop _ _ (fuel + 1) _ 1 = _
      unfold freshAllocLoop
      rw [if_pos hex]
      exact freshAllocLoop_tail_eq_uniqueLoop _ _ fuel 1
    · simp only [Bool.not_eq_true] at hex
      rw [if_neg (by rw [hex]; simp)]
      exact freshAllocLoop_of_free _ _ _ fuel 1 hex
  · intro hup
    simp only [unique_path] at hup
    by_cases hex : fs.pexists (pjoin dir (pyName filename)) = true
    · rw [if_pos hex] at hup
      obtain ⟨j, hj1, hj2, hj3, hj4⟩ := uniqueLoop_first_free _ _ fuel 1 p hup
      exact Or.inr ⟨hex, j, hj1, hj2, hj3, hj4⟩
    · simp only [Bool.not_eq_true] at hex
      rw [if_neg (by rw [hex]; simp)] at hup
      simp only [Option.some.injEq] at hup
      exact Or.inl ⟨hex, hup.symm⟩

/-- Witness for `fresh_alloc_eq_unique_path` on a concrete directory holding
`"a.txt"` and `"a (1).txt"`. -/
theorem fresh_alloc_eq_unique_path_witness :
    let dir : FPath := ["d".toList]
    let fs : FS := ⟨[(["d".toList, "a.txt".toList], [1]),
      (["d".toList, "a (1).txt".toList], [2])], [["d".toList]]⟩
    (pyName "a.txt".toList ≠ [] ∧
      unique_path fs dir "a.txt".toList 4 = some ["d".toList, "a (2).txt".toList]) ∧
    freshPathAlloc fs dir "a.txt".toList 5 = unique_path fs dir "a.txt".toList 4 ∧
    ((fs.pexists (pjoin dir (pyName "a.txt".toList)) = false ∧
        (["d".toList, "a (2).txt".toList] : FPath) = pjoin dir (pyName "a.txt".toList)) ∨
      (fs.pexists (pjoin dir (pyName "a.txt".toList)) = true ∧
        ∃ j, 1 ≤ j ∧ (["d".toList, "a (2).txt".toList] : FPath)
            = uniqueCand dir "a.txt".toList j ∧
          fs.pexists (uniqueCand dir "a.txt".toList j) = false ∧
          ∀ m, 1 ≤ m → m < j →
            fs.pexists (uniqueCand dir "a.txt".toList m) = true)) := by
  refine ⟨⟨by decide, by rfl⟩, ?_, ?_⟩
  · exact (fresh_alloc_eq_unique_path _ _ "a.txt".toList 4
      ["d".toList, "a (2).txt".toList]).1 (by decide)
  · exact (fresh_alloc_eq_unique_path _ _ "a.txt".toList 4
      ["d".toList, "a (2).txt".toList]).2 (by rfl)

theorem putEntry_fs (st : RecvState) (k : TKey) (v : FPath × FPath) :
    (st.putEntry k v).fs = st.fs := rfl

/-- C3: a Resume for a key whose final file already exists with exactly the
requested size, while the table holds no entry for the key, replies with
offset = filesize, writes nothing (the filesystem is unchanged, so no partial
file is created or extended and no final file is modified); and the sender,
on reading any offset ≥ filesize, sends no payload bytes. -/
theorem resume_already_complete (dir : FPath) (st : RecvState) (filename : List Char)
    (content : Bytes) (streamAfter : Nat → Bytes) (fuel : Nat)
    (hent : st.getEntry (filename, content.length) = none)
    (hfile : st.fs.lookupFile (pjoin dir (pyName filename)) = some content) :
    (∃ st', handleResume dir st filename content.length streamAfter fuel
        = some ⟨st', content.length, [], false, pjoin dir (pyName filename),
            partPathFor (pjoin dir (pyName filename))⟩ ∧
      st'.fs = st.fs) ∧
    (∀ off, content.length ≤ off → senderResumeBody content content.length off = []) := by
  have hfs : st.fs.pexists (pjoin dir (pyName filename)) = true := by
    simp [FS.pexists, FS.isFile, hfile]
  have hsize : st.fs.fileSize (pjoin dir (pyName filename)) = content.length := by
    simp [FS.fileSize, hfile]
  constructor
  · have h1 : handleResume dir st filename content.length streamAfter fuel
        = handleResumeElse dir st filename content.length streamAfter fuel := by
      simp only [handleResume, hent]
    rw [h1]
    simp only [handleResumeElse]
    by_cases hadopt : st.fs.pexists (partPathFor (pjoin dir (pyName filename))) = true
    · refine ⟨st.putEntry (filename, content.length)
        (partPathFor (pjoin dir (pyName filename)), pjoin dir (pyName filename)), ?_, rfl⟩
      rw [hadopt]
      simp only [if_true, putEntry_fs, hfs, hsize]
      simp
    · simp only [Bool.not_eq_true] at hadopt
      refine ⟨st, ?_, rfl⟩
      rw [hadopt]
      simp only [Bool.false_eq_true, if_false, hfs, hsize]
      simp
  · intro off hoff
    unfold senderResumeBody
    rw [if_pos hoff]

/-- Witness for `resume_already_complete` on a concrete completed transfer. -/
theorem resume_already_complete_witness :
    let dir : FPath := ["d".toList]
    let fs : FS := ⟨[(["d".toList, "b.bin".toList], [1, 2, 3])], [["d".toList]]⟩
    let st : RecvState := ⟨[], fs⟩
    (st.getEntry ("b.bin".toList, ([1, 2, 3] : Bytes).length) = none ∧
      st.fs.lookupFile (pjoin dir (pyName "b.bin".toList)) = some [1, 2, 3]) ∧
    (∃ st', handleResume dir st "b.bin".toList ([1, 2, 3] : Bytes).length
        (senderResumeBody [1, 2, 3] 3) 2
        = some ⟨st', ([1, 2, 3] : Bytes).length, [], false,
            pjoin dir (pyName "b.bin".toList),
            partPathFor (pjoin dir (pyName "b.bin".toList))⟩ ∧
      st'.fs = st.fs) ∧
    (∀ off, ([1, 2, 3] : Bytes).length ≤ off →
      senderResumeBody [1, 2, 3] ([1, 2, 3] : Bytes).length off = []) := by
  refine ⟨⟨by decide, by rfl⟩, ?_, ?_⟩
  · exact (resume_already_complete ["d".toList]
      ⟨[], ⟨[(["d".toList, "b.bin".toList], [1, 2, 3])], [["d".toList]]⟩⟩
      "b.bin".toList [1, 2, 3]
      (senderResumeBody [1, 2, 3] 3) 2 (by decide) (by rfl)).1
  · exact (resume_already_complete ["d".toList]
      ⟨[], ⟨[(["d".toList, "b.bin".toList], [1, 2, 3])], [["d".toList]]⟩⟩
      "b.bin".toList [1, 2, 3]
      (senderResumeBody [1, 2, 3] 3) 2 (by decide) (by rfl)).2

theorem resolveComps_append_one (p : FPath) (c : Comp) (h : normalComp c = true) :
    resolveComps (p ++ [c]) = resolveComps p ++ [c] := by
  simp only [normalComp, decide_eq_true_eq] at h
  unfold resolveComps
  rw [List.foldl_append]
  simp only [List.foldl_cons, List.foldl_nil]
  rw [if_neg h.2.2, if_neg (by rintro (h1 | h2); exacts [h.1 h1, h.2.1 h2])]

theorem pySuffix_length_le (c : Comp) : (pySuffix c).length ≤ c.length := by
  unfold pySuffix
  rcases lastDotIdx c with _ | i
  · simp
  · simp only
    by_cases h : 0 < i ∧ i < c.length - 1
    · rw [if_pos h]
      simp [List.length_drop]
    · rw [if_neg h]
      simp

theorem partPathFor_concat (d : FPath) (c : Comp) :
    partPathFor (d ++ [c])
      = d ++ [c.take (c.length - (pySuffix c).length) ++ (pySuffix c ++ ".part".toList)] := by
  unfold partPathFor pyWithSuffix
  rw [plast_concat, pparent_concat]

theorem partComp_length (c : Comp) :
    (c.take (c.length - (pySuffix c).length) ++ (pySuffix c ++ ".part".toList)).length
      = c.length + 5 := by
  have h1 := pySuffix_length_le c
  simp only [List.length_append, List.length_take]
  have h2 : (".part".toList).length = 5 := by decide
  omega

theorem normalComp_of_three_le (c : Comp) (h : 3 ≤ c.length) : normalComp c = true := by
  simp only [normalComp, decide_eq_true_eq]
  refine ⟨?_, ?_, ?_⟩ <;> intro he <;> rw [he] at h <;> simp at h

theorem cancelDerivedPath_eq (dir : FPath) (f : List Char) (h1 : pyName f ≠ []) :
    cancelDerivedPath dir f = partPathFor (pjoin dir (pyName f)) := by
  unfold cancelDerivedPath partPathFor
  rw [pjoin_of_ne _ _ h1 (pyName_not_dot f), plast_concat]

/-- C4 counterexample: when a complete file of exactly the requested size
already sits at the derived final path, a Cancel (which correctly removes the
partial transfer's table entry and on-disk partial file) is followed by a
Resume that replies with offset = filesize, not 0 — refuting the claim's
"consequently a subsequent Resume for the same (filename, filesize) replies
with offset 0". Here `b.bin` of size 3 pre-exists; a fresh transfer of
`b.bin` is interrupted after 1 byte (allocated as `b (1).bin`), Cancel
removes it, and the subsequent Resume replies 3. -/
theorem cancel_then_resume_offset_cex :
    let dir : FPath := ["d".toList]
    let fs : FS := ⟨[(["d".toList, "b.bin".toList], [1, 2, 3])], [["d".toList]]⟩
    (handleFresh dir ⟨[], fs⟩ "b.bin".toList 3 [9] 3).map (fun r1 =>
      let st2 := handleCancel dir r1.st "b.bin".toList
      (r1.completed, r1.finalPath, st2.table.length,
        st2.fs.isFile r1.partPath,
        (handleResume dir st2 "b.bin".toList 3 (fun _ => []) 3).map (fun r2 => r2.offset)))
      = some (false, ["d".toList, "b (1).bin".toList], 0, false, some 3) ∧
    (3 : Nat) ≠ 0 := by
  constructor
  · rfl
  · decide

theorem FS.isFile_setFile (fs : FS) (p q : FPath) (bs : Bytes) :
    (fs.setFile p bs).isFile q
      = if resolveComps q = resolveComps p then true else fs.isFile q := by
  unfold FS.isFile
  rw [FS.lookupFile_setFile]
  by_cases h : resolveComps q = resolveComps p <;> simp [h]

theorem FS.isFile_removeFile (fs : FS) (p q : FPath) :
    (fs.removeFile p).isFile q
      = if resolveComps q = resolveComps p then false else fs.isFile q := by
  unfold FS.isFile
  rw [FS.lookupFile_removeFile]
  by_cases h : resolveComps q = resolveComps p <;> simp [h]

theorem FS.pexists_eq_false_iff (fs : FS) (p : FPath) :
    fs.pexists p = false ↔ fs.isFile p = false ∧ fs.isDir p = false := by
  unfold FS.pexists
  rw [Bool.or_eq_false_iff]

theorem resolve_concat_ne (base : FPath) (c1 c2 : Comp)
    (h1 : normalComp c1 = true) (h2 : normalComp c2 = true) (hne : c1 ≠ c2) :
    resolveComps (base ++ [c1]) ≠ resolveComps (base ++ [c2]) := by
  rw [resolveComps_append_one _ _ h1, resolveComps_append_one _ _ h2]
  intro h
  exact hne (by simpa using h)

theorem normalComp_decomp (c : Comp) (h : normalComp c = true) :
    c ≠ [] ∧ c ≠ ['.'] ∧ c ≠ "..".toList := by
  simpa only [normalComp, decide_eq_true_eq] using h

theorem resumeWritePhase_offset (st : RecvState) (part fin : FPath) (key : TKey)
    (filesize : Nat) (streamAfter : Nat → Bytes) :
    (resumeWritePhase st part fin key filesize streamAfter).offset
      = if st.fs.pexists part then st.fs.fileSize part else 0 := by
  unfold resumeWritePhase
  by_cases h : st.fs.pexists part = true
  · simp only [h, if_true]
    split <;> rfl
  · simp only [Bool.not_eq_true] at h
    simp only [h, Bool.false_eq_true, if_false]
    split <;> rfl

theorem pyStem_pySuffix_length (c : Comp) :
    (pyStem c).length + (pySuffix c).length = c.length := by
  unfold pyStem pySuffix
  rcases lastDotIdx c with _ | i
  · simp
  · simp only
    by_cases h : 0 < i ∧ i < c.length - 1
    · rw [if_pos h, if_pos h]
      simp only [List.length_take, List.length_drop]
      omega
    · rw [if_neg h, if_neg h]
      simp

theorem numberedName_one_length (b e : Comp) :
    (numberedName b e 1).length = b.length + e.length + 4 := by
  have h1 : natChars 1 = [digitChar 1] := by decide
  simp only [numberedName, h1, List.length_append]
  have h2 : (" (".toList).length = 2 := by decide
  have h3 : (")".toList).length = 1 := by decide
  simp only [h2, h3, List.length_singleton]
  omega

/-- C4 (amended): a Cancel for a filename with an active partial transfer
removes every matching table entry and its on-disk partial file (and the
derived `.part` path), sends no reply (the handler produces none), and a
subsequent Resume for the same (filename, filesize) replies with offset 0 —
provided no complete file of exactly that size already exists at the derived
final path (in that case Resume instead replies with the file's size, see
`cancel_then_resume_offset_cex`). -/
theorem cancel_then_resume_offset_zero (dir : FPath) (fs0 : FS) (filename : List Char)
    (S : Nat) (chunk : Bytes) (streamAfter : Nat → Bytes) (fuel : Nat)
    (hname : pyName filename = filename) (hnf : normalComp filename = true)
    (hfree : fs0.pexists (dir ++ [filename]) = false)
    (hpart : fs0.pexists (partPathFor (dir ++ [filename])) = false)
    (hmk1 : fs0.pexists (mkNumbered (dir ++ [filename]) 1) = false)
    (hk : 0 < chunk.length) (hkS : chunk.length < S) :
    ∃ r1 r2,
      handleFresh dir ⟨[], fs0⟩ filename S chunk (fuel + 1) = some r1 ∧
      r1.completed = false ∧
      r1.finalPath = dir ++ [filename] ∧
      r1.partPath = partPathFor (dir ++ [filename]) ∧
      (handleCancel dir r1.st filename).table = [] ∧
      (handleCancel dir r1.st filename).fs.isFile r1.partPath = false ∧
      handleResume dir (handleCancel dir r1.st filename) filename S streamAfter (fuel + 1)
        = some r2 ∧
      r2.offset = 0 := by
  obtain ⟨hne, hdot, hdd⟩ := normalComp_decomp filename hnf
  have hjoin : pjoin dir (pyName filename) = dir ++ [filename] := by
    rw [hname]; exact pjoin_of_ne _ _ hne hdot
  set dest0 : FPath := dir ++ [filename] with hdest0
  set pc : Comp :=
    filename.take (filename.length - (pySuffix filename).length)
      ++ (pySuffix filename ++ ".part".toList) with hpc
  have hpartc : partPathFor dest0 = dir ++ [pc] := partPathFor_concat dir filename
  have hpcn : normalComp pc = true := by
    refine normalComp_of_three_le _ ?_
    rw [hpc, partComp_length]
    omega
  have hpclen : pc.length = filename.length + 5 := by
    rw [hpc]; exact partComp_length filename
  -- the numbered candidate component
  set nc : Comp := numberedName (pyStem filename) (pySuffix filename) 1 with hnc
  have hmk1e : mkNumbered dest0 1 = dir ++ [nc] := by
    unfold mkNumbered
    rw [hdest0, plast_concat, pparent_concat]
  have hncn : normalComp nc = true := numberedName_normal _ _ _
  have hnclen : nc.length = filename.length + 4 := by
    rw [hnc, numberedName_one_length]
    have := pyStem_pySuffix_length filename
    omega
  -- pairwise distinctness of the three components
  have hfc_pc : filename ≠ pc := fun h => by rw [h] at hpclen; omega
  have hfc_nc : filename ≠ nc := fun h => by rw [h] at hnclen; omega
  have hnc_pc : nc ≠ pc := fun h => by rw [h] at hnclen; omega
  -- step 1: the interrupted fresh transfer
  have halloc : freshPathAlloc fs0 dir filename (fuel + 1) = some dest0 := by
    simp only [freshPathAlloc, hjoin]
    exact freshAllocLoop_of_free _ _ _ fuel 1 hfree
  have htake : chunk.take S = chunk := List.take_of_length_le (Nat.le_of_lt hkS)
  set st1 : RecvState :=
    ⟨[((filename, S), (dir ++ [pc], dest0))], fs0.setFile (dir ++ [pc]) chunk⟩ with hst1
  have hfresh : handleFresh dir ⟨[], fs0⟩ filename S chunk (fuel + 1)
      = some ⟨st1, false, dest0, dir ++ [pc]⟩ := by
    simp only [handleFresh, halloc, htake, hpartc]
    rw [if_neg (by omega : ¬ S ≤ chunk.length)]
    rfl
  refine ⟨⟨st1, false, dest0, dir ++ [pc]⟩, ?_⟩
  -- step 2: the cancel
  have hfs1_part : (fs0.setFile (dir ++ [pc]) chunk).isFile (dir ++ [pc]) = true := by
    rw [FS.isFile_setFile, if_pos rfl]
  set fs2 : FS := (fs0.setFile (dir ++ [pc]) chunk).removeFile (dir ++ [pc]) with hfs2
  have hcancel : handleCancel dir st1 filename = ⟨[], fs2⟩ := by
    simp only [handleCancel, hst1]
    have hmatch : List.filter (fun e => decide (e.1.1 = filename))
        [((filename, S), (dir ++ [pc], dest0))] = [((filename, S), (dir ++ [pc], dest0))] := by
      simp
    have hrest : List.filter (fun e => decide (e.1.1 ≠ filename))
        [((filename, S), (dir ++ [pc], dest0))] = [] := by
      simp
    rw [hmatch, hrest]
    simp only [List.foldl_cons, List.foldl_nil, hfs1_part, if_true]
    have hder : cancelDerivedPath dir filename = dir ++ [pc] := by
      rw [cancelDerivedPath_eq dir filename (by rw [hname]; exact hne), hjoin, hpartc]
    rw [hder]
    have hgone : fs2.isFile (dir ++ [pc]) = false := by
      rw [hfs2, FS.isFile_removeFile, if_pos rfl]
    rw [← hfs2, hgone]
    simp
  -- facts about fs2
  have hf1 : fs2.pexists (dir ++ [pc]) = false := by
    rw [FS.pexists_eq_false_iff]
    constructor
    · rw [hfs2, FS.isFile_removeFile, if_pos rfl]
    · rw [hfs2, FS.isDir_removeFile, FS.isDir_setFile]
      exact ((FS.pexists_eq_false_iff _ _).mp (hpartc ▸ hpart)).2
  have hf2 : fs2.pexists dest0 = false := by
    have hd := resolve_concat_ne dir filename pc hnf hpcn hfc_pc
    rw [FS.pexists_eq_false_iff]
    constructor
    · rw [hfs2, FS.isFile_removeFile, if_neg hd, FS.isFile_setFile, if_neg hd]
      exact ((FS.pexists_eq_false_iff _ _).mp hfree).1
    · rw [hfs2, FS.isDir_removeFile, FS.isDir_setFile]
      exact ((FS.pexists_eq_false_iff _ _).mp hfree).2
  have hf3 : fs2.pexists (dir ++ [nc]) = false := by
    have hd := resolve_concat_ne dir nc pc hncn hpcn hnc_pc
    rw [FS.pexists_eq_false_iff]
    constructor
    · rw [hfs2, FS.isFile_removeFile, if_neg hd, FS.isFile_setFile, if_neg hd]
      exact ((FS.pexists_eq_false_iff _ _).mp (hmk1e ▸ hmk1)).1
    · rw [hfs2, FS.isDir_removeFile, FS.isDir_setFile]
      exact ((FS.pexists_eq_false_iff _ _).mp (hmk1e ▸ hmk1)).2
  -- step 3: the resume
  have hralloc : resumePathAlloc fs2 dir filename (fuel + 1) = some dest0 := by
    simp only [resumePathAlloc, hjoin]
    exact resumeAllocLoop_of_free _ _ _ fuel 1 hf2 (by rw [hmk1e]; exact hf3)
  have hres : handleResume dir ⟨[], fs2⟩ filename S streamAfter (fuel + 1)
      = some (resumeWritePhase ((⟨[], fs2⟩ : RecvState).putEntry (filename, S)
          (dir ++ [pc], dest0)) (dir ++ [pc]) dest0 (filename, S) S streamAfter) := by
    have hent : (⟨[], fs2⟩ : RecvState).getEntry (filename, S) = none := rfl
    simp only [handleResume, hent, handleResumeElse, hjoin, hpartc]
    rw [hf1]
    simp only [Bool.false_eq_true, if_false]
    have hcomp : (fs2.pexists dest0 && decide (fs2.fileSize dest0 = S)) = false := by
      rw [hf2]; rfl
    rw [hcomp]
    simp only [Bool.false_eq_true, if_false]
    simp only [hralloc]
    rw [hpartc]
  refine ⟨resumeWritePhase ((⟨[], fs2⟩ : RecvState).putEntry (filename, S)
    (dir ++ [pc], dest0)) (dir ++ [pc]) dest0 (filename, S) S streamAfter,
    hfresh, rfl, rfl, hpartc.symm, ?_, ?_, ?_, ?_⟩
  · rw [hcancel]
  · rw [hcancel]
    show fs2.isFile (dir ++ [pc]) = false
    rw [hfs2, FS.isFile_removeFile, if_pos rfl]
  · rw [hcancel]
    exact hres
  · rw [resumeWritePhase_offset]
    have hpe : ((⟨[], fs2⟩ : RecvState).putEntry (filename, S) (dir ++ [pc], dest0)).fs
        = fs2 := rfl
    rw [hpe, hf1]
    rfl

/-- Witness for `cancel_then_resume_offset_zero`: a concrete interrupted
transfer of `a.txt` (1 of 3 bytes), cancelled, then resumed at offset 0. -/
theorem cancel_then_resume_offset_zero_witness :
    let dir : FPath := ["d".toList]
    let fs0 : FS := ⟨[], [["d".toList]]⟩
    (pyName "a.txt".toList = "a.txt".toList ∧ normalComp "a.txt".toList = true ∧
      fs0.pexists (dir ++ ["a.txt".toList]) = false ∧
      fs0.pexists (partPathFor (dir ++ ["a.txt".toList])) = false ∧
      fs0.pexists (mkNumbered (dir ++ ["a.txt".toList]) 1) = false ∧
      0 < ([7] : Bytes).length ∧ ([7] : Bytes).length < 3) ∧
    (∃ r1 r2,
      handleFresh dir ⟨[], fs0⟩ "a.txt".toList 3 [7] (1 + 1) = some r1 ∧
      r1.completed = false ∧
      r1.finalPath = dir ++ ["a.txt".toList] ∧
      r1.partPath = partPathFor (dir ++ ["a.txt".toList]) ∧
      (handleCancel dir r1.st "a.txt".toList).table = [] ∧
      (handleCancel dir r1.st "a.txt".toList).fs.isFile r1.partPath = false ∧
      handleResume dir (handleCancel dir r1.st "a.txt".toList) "a.txt".toList 3
        (senderResumeBody [7, 8, 9] 3) (1 + 1) = some r2 ∧
      r2.offset = 0) := by
  refine ⟨⟨by decide, by decide, by decide, by decide, by decide, by decide, by decide⟩, ?_⟩
  exact cancel_then_resume_offset_zero ["d".toList] ⟨[], [["d".toList]]⟩ "a.txt".toList
    3 [7] (senderResumeBody [7, 8, 9] 3) 1 (by decide) (by decide) (by decide)
    (by decide) (by decide) (by decide) (by decide)

/-- C1: for any source bytes and any interruption point `0 < k < filesize`, a
fresh transfer interrupted after `k` payload bytes leaves the partial residue
in place; the subsequent Resume for the same (filename, filesize), composed
with the sender's reaction to the offset reply, replies offset = `k`,
completes, and leaves the destination directory holding a final file
byte-identical to the source, with the partial file gone and the table entry
dropped. -/
theorem resume_after_interruption_correct (dir : FPath) (fs0 : FS)
    (filename : List Char) (content : Bytes) (k : Nat) (fuel : Nat)
    (hname : pyName filename = filename) (hnf : normalComp filename = true)
    (hfree : fs0.pexists (dir ++ [filename]) = false)
    (hk : 0 < k) (hkS : k < content.length) :
    ∃ r1 r2,
      handleFresh dir ⟨[], fs0⟩ filename content.length (content.take k) (fuel + 1)
        = some r1 ∧
      r1.completed = false ∧
      handleResume dir r1.st filename content.length
        (senderResumeBody content content.length) (fuel + 1) = some r2 ∧
      r2.offset = k ∧
      r2.completed = true ∧
      r2.finalPath = dir ++ [filename] ∧
      r2.st.fs.lookupFile (dir ++ [filename]) = some content ∧
      r2.st.fs.isFile r2.partPath = false ∧
      r2.st.table = [] := by
  obtain ⟨hne, hdot, hdd⟩ := normalComp_decomp filename hnf
  have hjoin : pjoin dir (pyName filename) = dir ++ [filename] := by
    rw [hname]; exact pjoin_of_ne _ _ hne hdot
  set S : Nat := content.length with hS
  set dest0 : FPath := dir ++ [filename] with hdest0
  set pc : Comp :=
    filename.take (filename.length - (pySuffix filename).length)
      ++ (pySuffix filename ++ ".part".toList) with hpc
  have hpartc : partPathFor dest0 = dir ++ [pc] := partPathFor_concat dir filename
  have hpcn : normalComp pc = true := by
    refine normalComp_of_three_le _ ?_
    rw [hpc, partComp_length]
    omega
  have hpclen : pc.length = filename.length + 5 := by
    rw [hpc]; exact partComp_length filename
  have hfc_pc : filename ≠ pc := fun h => by rw [h] at hpclen; omega
  have hdne := resolve_concat_ne dir filename pc hnf hpcn hfc_pc
  -- step 1: the interrupted fresh transfer
  have halloc : freshPathAlloc fs0 dir filename (fuel + 1) = some dest0 := by
    simp only [freshPathAlloc, hjoin]
    exact freshAllocLoop_of_free _ _ _ fuel 1 hfree
  have htake : (content.take k).take S = content.take k := by
    rw [List.take_take, Nat.min_eq_right (Nat.le_of_lt hkS)]
  have hlen : (content.take k).length = k := by
    rw [List.length_take, Nat.min_eq_left (Nat.le_of_lt hkS)]
  set st1 : RecvState :=
    ⟨[((filename, S), (dir ++ [pc], dest0))], fs0.setFile (dir ++ [pc]) (content.take k)⟩
    with hst1
  have hfresh : handleFresh dir ⟨[], fs0⟩ filename S (content.take k) (fuel + 1)
      = some ⟨st1, false, dest0, dir ++ [pc]⟩ := by
    simp only [handleFresh, halloc, htake, hpartc]
    rw [hlen, if_neg (by omega : ¬ S ≤ k)]
    rfl
  -- step 2: facts feeding the resume
  have hlook : st1.fs.lookupFile (dir ++ [pc]) = some (content.take k) := by
    rw [hst1]
    show (fs0.setFile (dir ++ [pc]) (content.take k)).lookupFile (dir ++ [pc]) = _
    rw [FS.lookupFile_setFile, if_pos rfl]
  have hpex : st1.fs.pexists (dir ++ [pc]) = true := by
    unfold FS.pexists FS.isFile
    rw [hlook]
    rfl
  have hsize : st1.fs.fileSize (dir ++ [pc]) = k := by
    unfold FS.fileSize
    rw [hlook]
    simpa using hlen
  have hent : st1.getEntry (filename, S) = some (dir ++ [pc], dest0) := by
    unfold RecvState.getEntry
    rw [hst1]
    show alookup [((filename, S), (dir ++ [pc], dest0))] (filename, S) = _
    rw [alookup_cons, if_pos rfl]
  -- step 3: compute the resume write phase
  have hoff : (if st1.fs.pexists (dir ++ [pc]) = true then st1.fs.fileSize (dir ++ [pc])
      else 0) = k := by
    rw [hpex, hsize]
    rfl
  have hbody : senderResumeBody content S k = content.drop k := by
    unfold senderResumeBody
    rw [if_neg (by omega : ¬ S ≤ k)]
  have hdlen : (content.drop k).length = S - k := by
    rw [List.length_drop]
  have htw : (content.drop k).take (S - k) = content.drop k :=
    List.take_of_length_le (by omega)
  have happ : st1.fs.appendFile (dir ++ [pc]) (content.drop k)
      = st1.fs.setFile (dir ++ [pc]) content := by
    unfold FS.appendFile
    rw [hlook]
    simp [List.take_append_drop]
  set fsF : FS :=
    ((st1.fs.setFile (dir ++ [pc]) content).removeFile (dir ++ [pc])).setFile dest0 content
    with hfsF
  have hphase : resumeWritePhase st1 (dir ++ [pc]) dest0 (filename, S) S
      (senderResumeBody content S)
      = ⟨⟨[], fsF⟩, k, content.drop k, true, dest0, dir ++ [pc]⟩ := by
    simp only [resumeWritePhase, hoff, hbody, htw]
    rw [if_neg (by omega : ¬ k = 0), happ]
    rw [if_pos (by rw [hdlen]; omega : S ≤ k + (content.drop k).length)]
    have hren : (st1.fs.setFile (dir ++ [pc]) content).rename (dir ++ [pc]) dest0
        = ((st1.fs.setFile (dir ++ [pc]) content).removeFile (dir ++ [pc])).setFile
            dest0 content := by
      unfold FS.rename
      rw [FS.lookupFile_setFile, if_pos rfl]
    simp only [hren]
    unfold RecvState.popEntry
    simp only [hst1]
    congr 1
    simp [aremove]
  refine ⟨⟨st1, false, dest0, dir ++ [pc]⟩,
    ⟨⟨[], fsF⟩, k, content.drop k, true, dest0, dir ++ [pc]⟩, hfresh, rfl, ?_, rfl, rfl, rfl,
    ?_, ?_, rfl⟩
  · simp only [handleResume, hent, hpex, if_true]
    rw [hphase]
  · show fsF.lookupFile dest0 = some content
    rw [hfsF, FS.lookupFile_setFile, if_pos rfl]
  · show fsF.isFile (dir ++ [pc]) = false
    rw [hfsF, FS.isFile_setFile, if_neg (fun h => hdne h.symm), FS.isFile_removeFile,
      if_pos rfl]

/-- Witness for `resume_after_interruption_correct`: a concrete five-byte file
interrupted after two bytes and resumed to completion. -/
theorem resume_after_interruption_correct_witness :
    let dir : FPath := ["d".toList]
    let fs0 : FS := ⟨[], [["d".toList]]⟩
    let content : Bytes := [10, 20, 30, 40, 50]
    (pyName "a.txt".toList = "a.txt".toList ∧ normalComp "a.txt".toList = true ∧
      fs0.pexists (dir ++ ["a.txt".toList]) = false ∧ 0 < 2 ∧ 2 < content.length) ∧
    (∃ r1 r2,
      handleFresh dir ⟨[], fs0⟩ "a.txt".toList content.length (content.take 2) (1 + 1)
        = some r1 ∧
      r1.completed = false ∧
      handleResume dir r1.st "a.txt".toList content.length
        (senderResumeBody content content.length) (1 + 1) = some r2 ∧
      r2.offset = 2 ∧
      r2.completed = true ∧
      r2.finalPath = dir ++ ["a.txt".toList] ∧
      r2.st.fs.lookupFile (dir ++ ["a.txt".toList]) = some content ∧
      r2.st.fs.isFile r2.partPath = false ∧
      r2.st.table = []) := by
  refine ⟨⟨by decide, by decide, by decide, by decide, by decide⟩, ?_⟩
  exact resume_after_interruption_correct ["d".toList] ⟨[], [["d".toList]]⟩
    "a.txt".toList [10, 20, 30, 40, 50] 2 1 (by decide) (by decide) (by decide)
    (by decide) (by decide)

/-- C9 counterexample: a stream-protocol filename whose basename is empty
(here `"."`) escapes the storage directory. With storage directory
`/home/u/Downloads`, a fresh transfer named `"."` joins to the directory
itself, and the collision loop's `parent = dest.parent` walks up to
`/home/u`, so the receiver writes the file `/home/u/Downloads (1)` — outside
the storage directory (its path does not extend the storage directory's).
Likewise a Cancel for `"."` deletes `/home/u/Downloads.part`, a file outside
the storage directory. This refutes both that the written path is the
storage directory joined with the basename and that no supplied name reaches
a file outside the storage directory. -/
theorem receiver_escapes_dir_cex :
    let dir : FPath := ["home".toList, "u".toList, "Downloads".toList]
    let fs : FS := ⟨[], [["home".toList], ["home".toList, "u".toList], dir]⟩
    ((handleFresh dir ⟨[], fs⟩ ".".toList 3 [1, 2, 3] 4).map (fun r =>
      (r.finalPath, r.partPath, r.st.fs.isFile r.finalPath))
      = some (["home".toList, "u".toList, "Downloads (1)".toList],
          ["home".toList, "u".toList, "Downloads (1).part".toList], true)) ∧
    resolveComps ["home".toList, "u".toList, "Downloads (1)".toList]
      = ["home".toList, "u".toList, "Downloads (1)".toList] ∧
    (["home".toList, "u".toList, "Downloads (1)".toList] : FPath).take 3
      ≠ ["home".toList, "u".toList, "Downloads".toList] ∧
    (FS.mk [(["home".toList, "u".toList, "Downloads.part".toList], [7])]
        [["home".toList], ["home".toList, "u".toList],
          ["home".toList, "u".toList, "Downloads".toList]]).isFile
      ["home".toList, "u".toList, "Downloads.part".toList] = true ∧
    (handleCancel ["home".toList, "u".toList, "Downloads".toList]
      ⟨[], FS.mk [(["home".toList, "u".toList, "Downloads.part".toList], [7])]
        [["home".toList], ["home".toList, "u".toList],
          ["home".toList, "u".toList, "Downloads".toList]]⟩
      ".".toList).fs.isFile
        ["home".toList, "u".toList, "Downloads.part".toList] = false := by
  refine ⟨by rfl, by rfl, by decide, by rfl, by rfl⟩

theorem splitOnCharAux_no_sep (sep : Char) :
    ∀ (s acc : List Char), (∀ ch ∈ acc, ch ≠ sep) →
      ∀ piece ∈ splitOnCharAux sep s acc, ∀ ch ∈ piece, ch ≠ sep := by
  intro s
  induction s with
  | nil =>
    intro acc hacc piece hp ch hch
    simp only [splitOnCharAux, List.mem_singleton] at hp
    subst hp
    exact hacc ch (List.mem_reverse.mp hch)
  | cons c cs ih =>
    intro acc hacc piece hp ch hch
    unfold splitOnCharAux at hp
    by_cases hc : c = sep
    · rw [if_pos hc] at hp
      rcases List.mem_cons.mp hp with hp1 | hp1
      · subst hp1
        exact hacc ch (List.mem_reverse.mp hch)
      · exact ih [] (by intro x hx; simp at hx) piece hp1 ch hch
    · rw [if_neg hc] at hp
      refine ih (c :: acc) ?_ piece hp ch hch
      intro x hx
      rcases List.mem_cons.mp hx with hx | hx
      · rw [hx]; exact hc
      · exact hacc x hx

theorem pyName_no_slash (s : List Char) : ∀ ch ∈ pyName s, ch ≠ '/' := by
  intro ch hch
  unfold pyName at hch
  rcases h : (pyNameParts s).getLast? with _ | c
  · rw [h] at hch; simp at hch
  · rw [h] at hch
    have hc := List.mem_of_mem_getLast? h
    unfold pyNameParts at hc
    have hc2 := List.mem_of_mem_filter hc
    unfold splitOnChar at hc2
    exact splitOnCharAux_no_sep '/' s [] (by intro x hx; simp at hx) c hc2 ch hch

theorem digitChar_ne_slash (n : Nat) (h : n < 10) : digitChar n ≠ '/' := by
  interval_cases n <;> decide

theorem natCharsAux_no_slash : ∀ (f n : Nat), ∀ ch ∈ natCharsAux f n, ch ≠ '/' := by
  intro f
  induction f with
  | zero => intro n ch hch; simp [natCharsAux] at hch
  | succ f ih =>
    intro n ch hch
    by_cases h : n < 10
    · simp only [natCharsAux, if_pos h, List.mem_singleton] at hch
      rw [hch]
      exact digitChar_ne_slash n h
    · simp only [natCharsAux, if_neg h, List.mem_append, List.mem_singleton] at hch
      rcases hch with hch | hch
      · exact ih (n / 10) ch hch
      · rw [hch]
        exact digitChar_ne_slash (n % 10) (Nat.mod_lt n (by omega))

theorem numberedName_no_slash (b e : Comp) (n : Nat)
    (hb : ∀ ch ∈ b, ch ≠ '/') (he : ∀ ch ∈ e, ch ≠ '/') :
    ∀ ch ∈ numberedName b e n, ch ≠ '/' := by
  intro ch hch
  simp only [numberedName, List.mem_append] at hch
  rcases hch with (((hch | hch) | hch) | hch) | hch
  · exact hb ch hch
  · have : ch = ' ' ∨ ch = '(' := by
      have h2 : (" (".toList) = [' ', '('] := by decide
      rw [h2] at hch
      simpa using hch
    rcases this with h | h <;> rw [h] <;> decide
  · exact natCharsAux_no_slash _ _ ch hch
  · have h2 : (")".toList) = [')'] := by decide
    rw [h2] at hch
    have : ch = ')' := by simpa using hch
    rw [this]; decide
  · exact he ch hch

theorem pyStem_no_slash (c : Comp) (h : ∀ ch ∈ c, ch ≠ '/') :
    ∀ ch ∈ pyStem c, ch ≠ '/' := by
  unfold pyStem
  rcases lastDotIdx c with _ | i
  · exact h
  · show ∀ ch ∈ (if 0 < i ∧ i < c.length - 1 then List.take i c else c), ch ≠ '/'
    by_cases hcnd : 0 < i ∧ i < c.length - 1
    · rw [if_pos hcnd]
      intro ch hch
      exact h ch (List.mem_of_mem_take hch)
    · rw [if_neg hcnd]
      exact h

theorem pySuffix_no_slash (c : Comp) (h : ∀ ch ∈ c, ch ≠ '/') :
    ∀ ch ∈ pySuffix c, ch ≠ '/' := by
  unfold pySuffix
  rcases lastDotIdx c with _ | i
  · intro ch hch; simp at hch
  · show ∀ ch ∈ (if 0 < i ∧ i < c.length - 1 then List.drop i c else []), ch ≠ '/'
    by_cases hcnd : 0 < i ∧ i < c.length - 1
    · rw [if_pos hcnd]
      intro ch hch
      exact h ch (List.mem_of_mem_drop hch)
    · rw [if_neg hcnd]
      intro ch hch; simp at hch

theorem partComp_no_slash (c : Comp) (h : ∀ ch ∈ c, ch ≠ '/') :
    ∀ ch ∈ (c.take (c.length - (pySuffix c).length) ++ (pySuffix c ++ ".part".toList)),
      ch ≠ '/' := by
  intro ch hch
  simp only [List.mem_append] at hch
  rcases hch with hch | hch | hch
  · exact h ch (List.mem_of_mem_take hch)
  · exact pySuffix_no_slash c h ch hch
  · have h2 : (".part".toList) = ['.', 'p', 'a', 'r', 't'] := by decide
    rw [h2] at hch
    fin_cases hch <;> decide

theorem plast_no_slash (p : FPath) (h : ∀ c ∈ p, ∀ ch ∈ c, ch ≠ '/') :
    ∀ ch ∈ plast p, ch ≠ '/' := by
  intro ch hch
  unfold plast at hch
  rcases hg : p.getLast? with _ | c
  · rw [hg] at hch; simp at hch
  · rw [hg] at hch
    exact h c (List.mem_of_mem_getLast? hg) ch hch

theorem normalPath_dropLast (p : FPath) (h : normalPath p = true) :
    normalPath p.dropLast = true := by
  unfold normalPath at h ⊢
  rw [List.all_eq_true] at h ⊢
  intro c hc
  exact h c (List.mem_of_mem_dropLast hc)

theorem resolveComps_append_dotdot (p : FPath) :
    resolveComps (p ++ ["..".toList]) = (resolveComps p).dropLast := by
  unfold resolveComps
  rw [List.foldl_append]
  simp

/-- C9 (amended): the web file operations are confined to the storage
directory — basenames contain no separator, a download/delete that actually
finds a file resolves to a path directly inside the storage directory with
the basename as its single extra component, and `unique_path` always returns
a path directly inside the storage directory — and the stream receiver's
derived final, partial and cancel paths are likewise single components under
the storage directory whenever the supplied name's basename is nonempty; a
name with an empty basename (such as `"."`) makes the receiver escape to the
storage directory's parent (see `receiver_escapes_dir_cex`). -/
theorem web_paths_confined (fs : FS) (dir : FPath) (s fname : List Char) (fuel : Nat)
    (p dest dest2 : FPath)
    (hnd : normalPath dir = true)
    (hslash : ∀ c ∈ dir, ∀ ch ∈ c, ch ≠ '/')
    (hdir : fs.isDir dir = true)
    (hparent : fs.isDir (pparent dir) = true)
    (hdisj : ∀ q, fs.isFile q = true → fs.isDir q = false) :
    (∀ ch ∈ pyName s, ch ≠ '/') ∧
    (fs.isFile (pjoin dir (pyName s)) = true →
      pyName s ≠ [] ∧ pyName s ≠ "..".toList ∧
      resolveComps (pjoin dir (pyName s)) = dir ++ [pyName s]) ∧
    (unique_path fs dir s fuel = some p →
      ∃ c, p = dir ++ [c] ∧ c ≠ [] ∧ (∀ ch ∈ c, ch ≠ '/') ∧
        resolveComps p = dir ++ [c]) ∧
    (pyName fname ≠ [] → freshPathAlloc fs dir fname fuel = some dest →
      ∃ c, dest = dir ++ [c] ∧ normalComp c = true ∧ (∀ ch ∈ c, ch ≠ '/') ∧
        partPathFor dest = dir ++ [c.take (c.length - (pySuffix c).length)
          ++ (pySuffix c ++ ".part".toList)]) ∧
    (pyName fname ≠ [] → resumePathAlloc fs dir fname fuel = some dest2 →
      ∃ c, dest2 = dir ++ [c] ∧ normalComp c = true ∧ (∀ ch ∈ c, ch ≠ '/')) ∧
    (pyName fname ≠ [] →
      cancelDerivedPath dir fname
        = dir ++ [(pyName fname).take ((pyName fname).length
            - (pySuffix (pyName fname)).length)
          ++ (pySuffix (pyName fname) ++ ".part".toList)]) := by
  have hresdir : resolveComps dir = dir := resolveComps_normal dir hnd
  have hresparent : resolveComps (pparent dir) = pparent dir :=
    resolveComps_normal _ (normalPath_dropLast dir hnd)
  have hA : fs.pexists dir = true := by
    unfold FS.pexists
    rw [hdir, Bool.or_true]
  have hdd_res : resolveComps (dir ++ ["..".toList]) = pparent dir := by
    rw [resolveComps_append_dotdot, hresdir]
    rfl
  have hB : fs.pexists (dir ++ ["..".toList]) = true := by
    unfold FS.pexists FS.isDir
    unfold FS.isDir at hparent
    rw [hresparent] at hparent
    rw [hdd_res, hparent, Bool.or_true]
  have hfileDD : fs.isFile (dir ++ ["..".toList]) = fs.isFile (pparent dir) := by
    unfold FS.isFile FS.lookupFile
    rw [hdd_res, hresparent]
  -- the generic "pjoin with a good basename resolves inside" fact
  have hjoinGood : ∀ (c : Comp), c ≠ [] → c ≠ ['.'] → c ≠ "..".toList →
      (∀ ch ∈ c, ch ≠ '/') →
      pjoin dir c = dir ++ [c] ∧ resolveComps (dir ++ [c]) = dir ++ [c] := by
    intro c h1 h2 h3 _
    refine ⟨pjoin_of_ne dir c h1 h2, ?_⟩
    have hcn : normalComp c = true := by
      simp only [normalComp, decide_eq_true_eq]
      exact ⟨h1, h2, h3⟩
    rw [resolveComps_append_one _ _ hcn, hresdir]
  refine ⟨pyName_no_slash s, ?_, ?_, ?_, ?_, ?_⟩
  · intro hfile
    by_cases hc1 : pyName s = []
    · rw [hc1] at hfile
      have : fs.isFile dir = true := hfile
      exact absurd hdir (by rw [hdisj dir this]; simp)
    · by_cases hc2 : pyName s = "..".toList
      · rw [hc2] at hfile
        rw [pjoin_of_ne dir _ (by decide) (by decide)] at hfile
        rw [hfileDD] at hfile
        exact absurd hparent (by rw [hdisj _ hfile]; simp)
      · obtain ⟨hj, hr⟩ := hjoinGood (pyName s) hc1 (pyName_not_dot s) hc2
          (pyName_no_slash s)
        exact ⟨hc1, hc2, by rw [hj, hr]⟩
  · intro hup
    simp only [unique_path] at hup
    have hplastJ : ∀ ch ∈ plast (pjoin dir (pyName s)), ch ≠ '/' := by
      by_cases hc1 : pyName s = []
      · rw [hc1]
        show ∀ ch ∈ plast (pjoin dir []), ch ≠ '/'
        rw [show pjoin dir [] = dir from by simp [pjoin]]
        exact plast_no_slash dir hslash
      · rw [pjoin_of_ne dir _ hc1 (pyName_not_dot s), plast_concat]
        exact pyName_no_slash s
    by_cases hex : fs.pexists (pjoin dir (pyName s)) = true
    · rw [if_pos hex] at hup
      obtain ⟨j, _, hj2, _, _⟩ := uniqueLoop_first_free _ _ fuel 1 p hup
      set nn : Comp := numberedName (pyStem (plast (pjoin dir (pyName s))))
        (pySuffix (plast (pjoin dir (pyName s)))) j with hnn
      obtain ⟨hn1, hn2, _⟩ := normalComp_decomp nn (numberedName_normal _ _ _)
      have hjn : pjoin dir nn = dir ++ [nn] := pjoin_of_ne dir nn hn1 hn2
      refine ⟨nn, by rw [hj2, hjn], hn1, ?_, ?_⟩
      · exact numberedName_no_slash _ _ _ (pyStem_no_slash _ hplastJ)
          (pySuffix_no_slash _ hplastJ)
      · rw [hj2, hjn,
          resolveComps_append_one _ _ (numberedName_normal _ _ _), hresdir]
    · simp only [Bool.not_eq_true] at hex
      rw [if_neg (by rw [hex]; simp)] at hup
      simp only [Option.some.injEq] at hup
      have hc1 : pyName s ≠ [] := by
        intro h
        rw [h] at hex
        rw [show pjoin dir [] = dir from by simp [pjoin]] at hex
        rw [hA] at hex
        exact Bool.true_eq_false.mp hex
      have hc2 : pyName s ≠ "..".toList := by
        intro h
        rw [h] at hex
        rw [pjoin_of_ne dir _ (by decide) (by decide)] at hex
        rw [hB] at hex
        exact Bool.true_eq_false.mp hex
      obtain ⟨hj, hr⟩ := hjoinGood (pyName s) hc1 (pyName_not_dot s) hc2
        (pyName_no_slash s)
      exact ⟨pyName s, by rw [← hup, hj], hc1, pyName_no_slash s, by rw [← hup, hj, hr]⟩
  · intro hn hall
    have hj0 : pjoin dir (pyName fname) = dir ++ [pyName fname] :=
      pjoin_of_ne dir _ hn (pyName_not_dot fname)
    simp only [freshPathAlloc, hj0] at hall
    obtain ⟨hexp, hmem⟩ := freshAllocLoop_mem _ _ fuel _ 1 dest hall
    rcases hmem with hd | ⟨n, hd⟩
    · have hc2 : pyName fname ≠ "..".toList := by
        intro h
        rw [hd, h, hB] at hexp
        exact Bool.true_eq_false.mp hexp
      have hnc : normalComp (pyName fname) = true := by
        simp only [normalComp, decide_eq_true_eq]
        exact ⟨hn, pyName_not_dot fname, hc2⟩
      refine ⟨pyName fname, hd, hnc, pyName_no_slash fname, ?_⟩
      rw [hd]
      exact partPathFor_concat dir (pyName fname)
    · rw [mkNumbered, plast_concat, pparent_concat] at hd
      refine ⟨_, hd, numberedName_normal _ _ _, ?_, ?_⟩
      · exact numberedName_no_slash _ _ _ (pyStem_no_slash _ (pyName_no_slash fname))
          (pySuffix_no_slash _ (pyName_no_slash fname))
      · rw [hd]
        exact partPathFor_concat dir _
  · intro hn hall
    have hj0 : pjoin dir (pyName fname) = dir ++ [pyName fname] :=
      pjoin_of_ne dir _ hn (pyName_not_dot fname)
    simp only [resumePathAlloc, hj0] at hall
    obtain ⟨hexp, hmem⟩ := resumeAllocLoop_mem _ _ fuel _ 1 dest2 hall
    rcases hmem with hd | ⟨n, hd⟩
    · have hc2 : pyName fname ≠ "..".toList := by
        intro h
        rw [hd, h, hB] at hexp
        exact Bool.true_eq_false.mp hexp
      have hnc : normalComp (pyName fname) = true := by
        simp only [normalComp, decide_eq_true_eq]
        exact ⟨hn, pyName_not_dot fname, hc2⟩
      exact ⟨pyName fname, hd, hnc, pyName_no_slash fname⟩
    · rw [mkNumbered, plast_concat, pparent_concat] at hd
      refine ⟨_, hd, numberedName_normal _ _ _, ?_⟩
      exact numberedName_no_slash _ _ _ (pyStem_no_slash _ (pyName_no_slash fname))
        (pySuffix_no_slash _ (pyName_no_slash fname))
  · intro hn
    rw [cancelDerivedPath_eq dir fname hn,
      pjoin_of_ne dir _ hn (pyName_not_dot fname)]
    exact partPathFor_concat dir (pyName fname)

/-- Witness for `web_paths_confined`: concrete storage directory
`/home/u/Downloads`, requested name `"sub/report.pdf"`, showing the allocated
upload path sits directly inside the storage directory. -/
theorem web_paths_confined_witness :
    let dir : FPath := ["home".toList, "u".toList, "Downloads".toList]
    let fs : FS := ⟨[], [["home".toList], ["home".toList, "u".toList],
      ["home".toList, "u".toList, "Downloads".toList]]⟩
    (normalPath dir = true ∧ (∀ c ∈ dir, ∀ ch ∈ c, ch ≠ '/') ∧
      fs.isDir dir = true ∧ fs.isDir (pparent dir) = true ∧
      (∀ q, fs.isFile q = true → fs.isDir q = false) ∧
      unique_path fs dir "sub/report.pdf".toList 1
        = some (dir ++ ["report.pdf".toList])) ∧
    (∃ c, (dir ++ ["report.pdf".toList] : FPath) = dir ++ [c] ∧ c ≠ [] ∧
      (∀ ch ∈ c, ch ≠ '/') ∧
      resolveComps (dir ++ ["report.pdf".toList]) = dir ++ [c]) := by
  have hdisj : ∀ q, (FS.mk [] [["home".toList], ["home".toList, "u".toList],
      ["home".toList, "u".toList, "Downloads".toList]]).isFile q = true →
      (FS.mk [] [["home".toList], ["home".toList, "u".toList],
        ["home".toList, "u".toList, "Downloads".toList]]).isDir q = false := by
    intro q hq
    simp [FS.isFile, FS.lookupFile, alookup] at hq
  refine ⟨⟨by decide, by decide, by decide, by decide, hdisj, by rfl⟩, ?_⟩
  exact (web_paths_confined
    (FS.mk [] [["home".toList], ["home".toList, "u".toList],
      ["home".toList, "u".toList, "Downloads".toList]])
    ["home".toList, "u".toList, "Downloads".toList]
    "sub/report.pdf".toList "report.pdf".toList 1
    (["home".toList, "u".toList, "Downloads".toList] ++ ["report.pdf".toList])
    (["home".toList, "u".toList, "Downloads".toList] ++ ["report.pdf".toList])
    (["home".toList, "u".toList, "Downloads".toList] ++ ["report.pdf".toList])
    (by decide) (by decide) (by decide) (by decide) hdisj).2.2.1 (by rfl)

end FileDrop
